import Mathlib

/-
Verification of the vgfx/vgpu resource-lifetime and descriptor-management
subsystem: a shallow embedding of the D3D12 backend (mirrored by the Vulkan
backend) covering the deferred destruction queue, the growable descriptor
allocator, the upload/staging ring, bind-group layout/update translation,
the frame pacer, the command-buffer pool and swapchain acquisition.
-/

/-- VGPU_MAX_INFLIGHT_FRAMES, from include/vgpu.h line 57. -/
def VGPU_MAX_INFLIGHT_FRAMES : Nat := 2

/-- Doubling loop: starting from the candidate power of two `p`, double until
`n ≤ p` (the fuel is always sufficient at the call site below). -/
def nextPow2Go (n : Nat) : Nat → Nat → Nat
  | 0, p => p
  | fuel + 1, p => if n ≤ p then p else nextPow2Go n fuel (p * 2)

/-- Modelled from the spec: the helper `vgpuNextPowerOfTwo` is declared and
used by the sources (descriptor-heap growth, upload-buffer sizing) but its
definition is not part of the provided translation units.  The spec describes
it as the next power-of-two size greater than or equal to its argument, so we
take the least power of two that is `≥ n`, computed by doubling from 1. -/
def vgpuNextPowerOfTwo (n : Nat) : Nat := nextPow2Go n n 1

theorem nextPow2Go_ge (n : Nat) : ∀ (fuel p : Nat), n ≤ p * 2 ^ fuel →
    n ≤ nextPow2Go n fuel p := by
  intro fuel
  induction fuel with
  | zero => intro p h; simpa using h
  | succ fuel ih =>
    intro p h
    rw [nextPow2Go]
    by_cases hnp : n ≤ p
    · rw [if_pos hnp]; exact hnp
    · rw [if_neg hnp]
      refine ih (p * 2) ?_
      have : p * 2 ^ (fuel + 1) = p * 2 * 2 ^ fuel := by ring
      omega

theorem nextPow2Go_pow (n : Nat) : ∀ (fuel p : Nat), (∃ j, p = 2 ^ j) →
    ∃ j, nextPow2Go n fuel p = 2 ^ j := by
  intro fuel
  induction fuel with
  | zero => intro p h; exact h
  | succ fuel ih =>
    intro p h
    rw [nextPow2Go]
    by_cases hnp : n ≤ p
    · rw [if_pos hnp]; exact h
    · rw [if_neg hnp]
      rcases h with ⟨j, hj⟩
      exact ih (p * 2) ⟨j + 1, by rw [hj]; ring⟩

theorem le_vgpuNextPowerOfTwo (n : Nat) : n ≤ vgpuNextPowerOfTwo n := by
  refine nextPow2Go_ge n n 1 ?_
  have := Nat.lt_two_pow n
  omega

theorem vgpuNextPowerOfTwo_pow (n : Nat) : ∃ j, vgpuNextPowerOfTwo n = 2 ^ j :=
  nextPow2Go_pow n n 1 ⟨0, rfl⟩

theorem vgpuNextPowerOfTwo_double (m k : Nat) (hk : 1 ≤ k) :
    2 * 2 ^ m ≤ vgpuNextPowerOfTwo (2 ^ m + k) := by
  rcases vgpuNextPowerOfTwo_pow (2 ^ m + k) with ⟨j, hj⟩
  have hge := le_vgpuNextPowerOfTwo (2 ^ m + k)
  rw [hj] at hge ⊢
  have h2 : 2 ^ m < 2 ^ j := by omega
  have h3 : m < j := (Nat.pow_lt_pow_iff_right Nat.one_lt_two).mp h2
  calc 2 * 2 ^ m = 2 ^ (m + 1) := by ring
    _ ≤ 2 ^ j := Nat.pow_le_pow_right (by omega) (by omega)

/-! ### Deferred destruction queue

Embedding of `D3D12Device::DeferDestroy` and `D3D12Device::ProcessDeletionQueue`
(part_003 lines 2743-2802); `vulkan_ProcessDeletionQueue` (part_001 lines
898-1014) drains its per-kind queues with the identical front-while-eligible
loop.  Native handles are modelled as natural numbers; each queue entry pairs
a handle with the frame count at which it was deferred. -/

structure DestroyState where
  shuttingDown : Bool
  deviceNull : Bool
  frameCount : Nat
  deferredReleases : List (Nat × Nat)
  deferredAllocations : List (Nat × Nat)
deriving DecidableEq, Repr

/-- `D3D12Device::DeferDestroy(resource, allocation)`.  Returns the new state
together with the handles released immediately (synchronously). -/
def deferDestroy (s : DestroyState) (resource : Option Nat)
    (allocation : Option Nat) : DestroyState × List Nat :=
  match resource with
  | none => (s, [])
  | some h =>
    if s.shuttingDown || s.deviceNull then
      (s, h :: allocation.toList)
    else
      ({ s with
          deferredReleases := s.deferredReleases ++ [(h, s.frameCount)],
          deferredAllocations :=
            match allocation with
            | some a => s.deferredAllocations ++ [(a, s.frameCount)]
            | none => s.deferredAllocations }, [])

/-- The front-while-eligible drain loop shared by both backends: pop entries
from the front while `entry.frame + VGPU_MAX_INFLIGHT_FRAMES < frameCount`,
stop at the first ineligible entry.  Returns (destroyed entries, remaining
queue). -/
def drainQueue (frameCount : Nat) : List (Nat × Nat) → List (Nat × Nat) × List (Nat × Nat)
  | [] => ([], [])
  | e :: rest =>
    if e.2 + VGPU_MAX_INFLIGHT_FRAMES < frameCount then
      let r := drainQueue frameCount rest
      (e :: r.1, r.2)
    else
      ([], e :: rest)

/-- `D3D12Device::ProcessDeletionQueue`: drains the allocation queue, then the
release queue.  Returns the new state and all entries destroyed. -/
def processDeletionQueue (s : DestroyState) : DestroyState × List (Nat × Nat) :=
  let ra := drainQueue s.frameCount s.deferredAllocations
  let rr := drainQueue s.frameCount s.deferredReleases
  ({ s with deferredAllocations := ra.2, deferredReleases := rr.2 },
   ra.1 ++ rr.1)

/-- Client-visible events driving the destruction subsystem: deferring a
handle, advancing the frame counter (`Submit` increments it by one), and
running the deletion queue. -/
inductive DestroyOp where
  | defer (h : Nat)
  | advance
  | process
deriving DecidableEq, Repr

def stepDestroy (s : DestroyState) : DestroyOp → DestroyState
  | .defer h => (deferDestroy s (some h) none).1
  | .advance => { s with frameCount := s.frameCount + 1 }
  | .process => (processDeletionQueue s).1

def runDestroy (s : DestroyState) : List DestroyOp → DestroyState
  | [] => s
  | op :: rest => runDestroy (stepDestroy s op) rest

def destroyStart : DestroyState :=
  { shuttingDown := false, deviceNull := false, frameCount := 0,
    deferredReleases := [], deferredAllocations := [] }

/-- Queue well-formedness maintained by every reachable state: entry frames
are non-decreasing along the queue (FIFO with a monotone frame counter) and
bounded by the current frame count. -/
def QueueWF (frameCount : Nat) (q : List (Nat × Nat)) : Prop :=
  q.Pairwise (fun a b => a.2 ≤ b.2) ∧ ∀ e ∈ q, e.2 ≤ frameCount

theorem drainQueue_sound (frameCount : Nat) (q : List (Nat × Nat)) :
    ∀ e ∈ (drainQueue frameCount q).1, e.2 + VGPU_MAX_INFLIGHT_FRAMES < frameCount := by
  induction q with
  | nil => simp [drainQueue]
  | cons a rest ih =>
    intro e he
    by_cases h : a.2 + VGPU_MAX_INFLIGHT_FRAMES < frameCount
    · simp only [drainQueue, if_pos h] at he
      rcases List.mem_cons.mp he with he | he
      · subst he; exact h
      · exact ih e he
    · simp [drainQueue, if_neg h] at he

theorem drainQueue_complete (frameCount : Nat) (q : List (Nat × Nat))
    (hsorted : q.Pairwise (fun a b => a.2 ≤ b.2)) :
    ∀ e ∈ q, e.2 + VGPU_MAX_INFLIGHT_FRAMES < frameCount →
      e ∈ (drainQueue frameCount q).1 := by
  induction q with
  | nil => simp
  | cons a rest ih =>
    intro e he helig
    rcases List.pairwise_cons.mp hsorted with ⟨hhead, htail⟩
    rcases List.mem_cons.mp he with he | he
    · subst he
      simp [drainQueue, if_pos helig]
    · have ha : a.2 ≤ e.2 := hhead e he
      have haelig : a.2 + VGPU_MAX_INFLIGHT_FRAMES < frameCount := by omega
      have hrec := ih htail e he helig
      simp only [drainQueue, if_pos haelig, List.mem_cons]
      exact Or.inr hrec

theorem drainQueue_rest_sublist (frameCount : Nat) (q : List (Nat × Nat)) :
    (drainQueue frameCount q).2.Sublist q := by
  induction q with
  | nil => simp [drainQueue]
  | cons a rest ih =>
    by_cases h : a.2 + VGPU_MAX_INFLIGHT_FRAMES < frameCount
    · simpa [drainQueue, if_pos h] using ih.cons a
    · simp [drainQueue, if_neg h]

def DestroyInv (s : DestroyState) : Prop :=
  QueueWF s.frameCount s.deferredReleases

theorem stepDestroy_inv (s : DestroyState) (op : DestroyOp)
    (hs : DestroyInv s) : DestroyInv (stepDestroy s op) := by
  rcases hs with ⟨hsorted, hbound⟩
  cases op with
  | defer h =>
    by_cases hsd : (s.shuttingDown || s.deviceNull) = true
    · have hstep : stepDestroy s (.defer h) = s := by
        simp [stepDestroy, deferDestroy, hsd]
      rw [hstep]
      exact ⟨hsorted, hbound⟩
    · have hstep : stepDestroy s (.defer h) =
        { s with deferredReleases := s.deferredReleases ++ [(h, s.frameCount)] } := by
        simp [stepDestroy, deferDestroy, hsd]
      rw [hstep]
      refine ⟨?_, ?_⟩
      · refine List.pairwise_append.mpr ⟨hsorted, List.pairwise_singleton _ _, ?_⟩
        intro x hx y hy
        have := hbound x hx
        simp only [List.mem_singleton] at hy
        subst hy
        exact this
      · intro e he
        simp only [List.mem_append, List.mem_singleton] at he
        rcases he with he | he
        · exact hbound e he
        · subst he; exact le_rfl
  | advance =>
    refine ⟨hsorted, ?_⟩
    intro e he
    have := hbound e he
    simp only [stepDestroy]
    omega
  | process =>
    refine ⟨?_, ?_⟩
    · exact hsorted.sublist (drainQueue_rest_sublist s.frameCount s.deferredReleases)
    · intro e he
      exact hbound e ((drainQueue_rest_sublist s.frameCount s.deferredReleases).subset he)

theorem runDestroy_inv (s : DestroyState) (ops : List DestroyOp)
    (hs : DestroyInv s) : DestroyInv (runDestroy s ops) := by
  induction ops generalizing s with
  | nil => exact hs
  | cons op rest ih => exact ih (stepDestroy s op) (stepDestroy_inv s op hs)

theorem destroyStart_inv : DestroyInv destroyStart := by
  constructor <;> simp [destroyStart]

/-- Claim C1, counterexample to the claim as stated: defer handle 7 at frame 0,
advance the frame counter to 2 = MAX_INFLIGHT_FRAMES (so
currentFrame - f ≥ MAX_INFLIGHT_FRAMES holds), then run the deletion queue:
nothing is destroyed and the entry stays queued, because the code only
finalizes an entry once `entry.frame + MAX_INFLIGHT_FRAMES < frameCount`
holds strictly. -/
theorem processDeletionQueue_boundary_counterexample :
    (runDestroy destroyStart [DestroyOp.defer 7, DestroyOp.advance, DestroyOp.advance]).frameCount
        - 0 ≥ VGPU_MAX_INFLIGHT_FRAMES ∧
    (7, 0) ∈ (runDestroy destroyStart [DestroyOp.defer 7, DestroyOp.advance, DestroyOp.advance]).deferredReleases ∧
    (processDeletionQueue (runDestroy destroyStart
        [DestroyOp.defer 7, DestroyOp.advance, DestroyOp.advance])).2 = [] ∧
    (7, 0) ∈ (processDeletionQueue (runDestroy destroyStart
        [DestroyOp.defer 7, DestroyOp.advance, DestroyOp.advance])).1.deferredReleases := by
  decide

/-- Claim C1 (amended): for every sequence of DeferDestroy / frame-advance /
ProcessDeletionQueue events, an entry deferred at frame `f` is destroyed by a
ProcessDeletionQueue call exactly when `f + MAX_INFLIGHT_FRAMES < currentFrame`
(equivalently `currentFrame - f > MAX_INFLIGHT_FRAMES`, i.e.
`currentFrame - f ≥ MAX_INFLIGHT_FRAMES + 1`); in particular it is never
destroyed while `currentFrame - f < MAX_INFLIGHT_FRAMES`. -/
theorem processDeletionQueue_destroys_iff_strict (ops : List DestroyOp)
    (s : DestroyState) (hs : s = runDestroy destroyStart ops) (h f : Nat)
    (hmem : (h, f) ∈ s.deferredReleases) :
    ((h, f) ∈ (processDeletionQueue s).2 ↔
      f + VGPU_MAX_INFLIGHT_FRAMES < s.frameCount) ∧
    (s.frameCount - f < VGPU_MAX_INFLIGHT_FRAMES →
      (h, f) ∉ (processDeletionQueue s).2) := by
  have hinv : DestroyInv s := hs ▸ runDestroy_inv destroyStart ops destroyStart_inv
  have hiff : (h, f) ∈ (processDeletionQueue s).2 ↔
      f + VGPU_MAX_INFLIGHT_FRAMES < s.frameCount := by
    constructor
    · intro hd
      simp only [processDeletionQueue, List.mem_append] at hd
      rcases hd with hd | hd
      · exact drainQueue_sound s.frameCount s.deferredAllocations (h, f) hd
      · exact drainQueue_sound s.frameCount s.deferredReleases (h, f) hd
    · intro helig
      simp only [processDeletionQueue, List.mem_append]
      exact Or.inr (drainQueue_complete s.frameCount s.deferredReleases
        hinv.1 (h, f) hmem helig)
  refine ⟨hiff, ?_⟩
  intro hlt hd
  have := hiff.mp hd
  omega

theorem processDeletionQueue_destroys_iff_strict_witness :
    (7, 0) ∈ (processDeletionQueue (runDestroy destroyStart
      [DestroyOp.defer 7, DestroyOp.advance, DestroyOp.advance, DestroyOp.advance])).2 :=
  (processDeletionQueue_destroys_iff_strict
    [DestroyOp.defer 7, DestroyOp.advance, DestroyOp.advance, DestroyOp.advance]
    _ rfl 7 0 (by decide)).1.mpr (by decide)

/-- Claim C9: DeferDestroy with a null handle changes no state and releases
nothing; DeferDestroy with a non-null handle while shutting down (or with a
null native device) releases the handle and its allocation immediately and
synchronously, enqueuing nothing. -/
theorem deferDestroy_null_and_shutdown (s : DestroyState) (h : Nat)
    (a : Option Nat) :
    deferDestroy s none a = (s, []) ∧
    (s.shuttingDown = true ∨ s.deviceNull = true →
      deferDestroy s (some h) a = (s, h :: a.toList)) := by
  refine ⟨rfl, ?_⟩
  intro hsd
  have hcond : (s.shuttingDown || s.deviceNull) = true := by
    rcases hsd with hsd | hsd <;> simp [hsd]
  simp [deferDestroy, hcond]

theorem deferDestroy_null_and_shutdown_witness :
    deferDestroy ⟨true, false, 4, [], []⟩ none (some 3) = (⟨true, false, 4, [], []⟩, []) ∧
    deferDestroy ⟨true, false, 4, [], []⟩ (some 5) (some 3) = (⟨true, false, 4, [], []⟩, [5, 3]) := by
  have hthm := deferDestroy_null_and_shutdown ⟨true, false, 4, [], []⟩ 5 (some 3)
  exact ⟨hthm.1, hthm.2 (Or.inl rfl)⟩

/-! ### Descriptor allocator

Embedding of `D3D12DescriptorAllocator` (part_003 lines 830-1033):
`AllocateDescriptors` scans forward from `searchStart` for a run of `count`
free slots, growing the heap to `vgpuNextPowerOfTwo(numDescriptors + count)`
when no run is found; `ReleaseDescriptors` clears a range and rewinds
`searchStart`.  `contents` models the CPU-side descriptor payload of each heap
slot; `Grow` bulk-copies the first `oldSize` payloads into the new heap. -/

structure DescAllocator where
  numDescriptors : Nat
  allocatedDescriptors : List Bool
  searchStart : Nat
  numAllocatedDescriptors : Nat
  contents : Nat → Nat

/-- Write `b` into `count` consecutive occupancy slots starting at `i`
(the for-loops in `AllocateDescriptors` / `ReleaseDescriptors`). -/
def setRange (b : Bool) : List Bool → Nat → Nat → List Bool
  | l, _, 0 => l
  | l, i, c + 1 => setRange b (l.set i b) (i + 1) c

theorem setRange_length (b : Bool) (l : List Bool) (i c : Nat) :
    (setRange b l i c).length = l.length := by
  induction c generalizing l i with
  | zero => rfl
  | succ c ih => simp [setRange, ih, List.length_set]

theorem setRange_getElem? (b : Bool) (l : List Bool) (i c j : Nat) :
    (setRange b l i c)[j]? =
      if i ≤ j ∧ j < i + c then (if j < l.length then some b else none)
      else l[j]? := by
  induction c generalizing l i with
  | zero =>
    simp only [setRange]
    have h : ¬(i ≤ j ∧ j < i + 0) := by omega
    rw [if_neg h]
  | succ c ih =>
    simp only [setRange]
    rw [ih]
    by_cases hij : i = j
    · subst hij
      have h1 : ¬(i + 1 ≤ i ∧ i < i + 1 + c) := by omega
      have h2 : i ≤ i ∧ i < i + (c + 1) := by omega
      rw [if_neg h1, if_pos h2, List.getElem?_set, if_pos rfl]
    · rw [List.length_set, List.getElem?_set_ne hij]
      by_cases h1 : i + 1 ≤ j ∧ j < i + 1 + c
      · have h2 : i ≤ j ∧ j < i + (c + 1) := by omega
        rw [if_pos h1, if_pos h2]
      · have h2 : ¬(i ≤ j ∧ j < i + (c + 1)) := by omega
        rw [if_neg h1, if_neg h2]

/-- `std::vector::resize(n)` on the occupancy vector: keep the first `n`
entries, pad with `false`. -/
def resizeFill (l : List Bool) (n : Nat) : List Bool :=
  l.take n ++ List.replicate (n - l.length) false

theorem resizeFill_length (l : List Bool) (n : Nat) (hn : l.length ≤ n) :
    (resizeFill l n).length = n := by
  simp [resizeFill, List.length_take]
  omega

theorem resizeFill_getElem?_lt (l : List Bool) (n j : Nat) (hn : l.length ≤ n)
    (hj : j < l.length) : (resizeFill l n)[j]? = l[j]? := by
  have ht : l.take n = l := List.take_of_length_le hn
  rw [resizeFill, ht, List.getElem?_append_left hj]

theorem resizeFill_getElem?_new (l : List Bool) (n j : Nat) (hj : l.length ≤ j)
    (hjn : j < n) : (resizeFill l n)[j]? = some false := by
  have ht : l.take n = l := List.take_of_length_le (by omega)
  rw [resizeFill, ht, List.getElem?_append_right hj, List.getElem?_replicate,
    if_pos (by omega)]


/-- One step of the free-run counter in `AllocateDescriptors`: an occupied
slot resets the counter, a free slot extends it. -/
def scanStepFree (occupied : Bool) (freeCount : Nat) : Nat :=
  if occupied then 0 else freeCount + 1

/-- Structural worker for the scan loop; `fuel` is kept at exactly
`alloc.length - i`, so the loop body below is the literal loop of the
source. -/
def scanGo (alloc : List Bool) (count : Nat) : Nat → Nat → Nat → Option Nat
  | 0, _, _ => none
  | fuel + 1, i, freeCount =>
    if h : i < alloc.length then
      if count ≤ scanStepFree alloc[i] freeCount then
        some (i + 1 - count)
      else
        scanGo alloc count fuel (i + 1) (scanStepFree alloc[i] freeCount)
    else none

/-- The forward scan of `AllocateDescriptors` (part_003 lines 878-891):
starting at `i` with the current run length `freeCount`, return
`index - count + 1` for the first `index` at which the free-run counter
reaches `count`, or `none` when the scan runs off the end of the heap. -/
def scanFreeRun (alloc : List Bool) (count i freeCount : Nat) : Option Nat :=
  scanGo alloc count (alloc.length - i) i freeCount

/-- The one-step unfolding of the scan loop. -/
theorem scanFreeRun_eq (alloc : List Bool) (count i freeCount : Nat) :
    scanFreeRun alloc count i freeCount =
      if h : i < alloc.length then
        if count ≤ scanStepFree alloc[i] freeCount then
          some (i + 1 - count)
        else
          scanFreeRun alloc count (i + 1) (scanStepFree alloc[i] freeCount)
      else none := by
  unfold scanFreeRun
  cases hf : alloc.length - i with
  | zero =>
    have hni : ¬ i < alloc.length := by omega
    rw [dif_neg hni]
    rfl
  | succ f =>
    have hi : i < alloc.length := by omega
    have hf2 : alloc.length - (i + 1) = f := by omega
    rw [dif_pos hi, hf2]
    simp only [scanGo]
    rw [dif_pos hi]

theorem scanFreeRun_sound_aux (alloc : List Bool) (count : Nat) :
    ∀ d i freeCount idx, alloc.length - i ≤ d →
      scanFreeRun alloc count i freeCount = some idx →
      freeCount ≤ i →
      (∀ j, i - freeCount ≤ j → j < i → alloc[j]? = some false) →
      idx + count ≤ alloc.length ∧
        ∀ j, idx ≤ j → j < idx + count → alloc[j]? = some false := by
  intro d
  induction d with
  | zero =>
    intro i freeCount idx hd hscan _ _
    rw [scanFreeRun_eq, dif_neg (by omega : ¬ i < alloc.length)] at hscan
    exact absurd hscan (by simp)
  | succ d ih =>
    intro i freeCount idx hd hscan hfle hfree
    rw [scanFreeRun_eq] at hscan
    by_cases hi : i < alloc.length
    · rw [dif_pos hi] at hscan
      by_cases hocc : alloc[i] = true
      · have hstep : scanStepFree alloc[i] freeCount = 0 := by
          simp [scanStepFree, hocc]
        rw [hstep] at hscan
        by_cases hfound : count ≤ 0
        · rw [if_pos hfound] at hscan
          have hidx : idx = i + 1 - count := by
            injection hscan with h1; omega
          refine ⟨by omega, ?_⟩
          intro j hj1 hj2
          omega
        · rw [if_neg hfound] at hscan
          refine ih (i + 1) 0 idx (by omega) hscan (by omega) ?_
          intro j hj1 hj2
          omega
      · have hoccf : alloc[i] = false := by
          cases h : alloc[i]
          · rfl
          · exact absurd h hocc
        have hstep : scanStepFree alloc[i] freeCount = freeCount + 1 := by
          simp [scanStepFree, hoccf]
        rw [hstep] at hscan
        have hallocI : alloc[i]? = some false := by
          rw [List.getElem?_eq_getElem hi, hoccf]
        by_cases hfound : count ≤ freeCount + 1
        · rw [if_pos hfound] at hscan
          have hidx : idx = i + 1 - count := by
            injection hscan with h1; omega
          refine ⟨by omega, ?_⟩
          intro j hj1 hj2
          by_cases hji : j = i
          · subst hji; exact hallocI
          · exact hfree j (by omega) (by omega)
        · rw [if_neg hfound] at hscan
          refine ih (i + 1) (freeCount + 1) idx (by omega) hscan (by omega) ?_
          intro j hj1 hj2
          by_cases hji : j = i
          · subst hji; exact hallocI
          · exact hfree j (by omega) (by omega)
    · rw [dif_neg hi] at hscan
      exact absurd hscan (by simp)

theorem scanFreeRun_sound (alloc : List Bool) (count i idx : Nat)
    (h : scanFreeRun alloc count i 0 = some idx) :
    idx + count ≤ alloc.length ∧
      ∀ j, idx ≤ j → j < idx + count → alloc[j]? = some false :=
  scanFreeRun_sound_aux alloc count (alloc.length - i) i 0 idx le_rfl h
    (Nat.zero_le i) (by omega)

theorem scanFreeRun_finds_aux1 (alloc : List Bool) (count idx : Nat)
    (hc : 1 ≤ count) (hbound : idx + count ≤ alloc.length)
    (hfree : ∀ j, idx ≤ j → j < idx + count → alloc[j]? = some false) :
    ∀ d i fc, idx + count - i ≤ d → idx ≤ i → i < idx + count → i - idx ≤ fc →
      (scanFreeRun alloc count i fc).isSome := by
  intro d
  induction d with
  | zero => intro i fc h1 h2 h3 h4; omega
  | succ d ih =>
    intro i fc h1 h2 h3 h4
    have hi : i < alloc.length := by omega
    have hifree : alloc[i]? = some false := hfree i h2 h3
    have hocc : alloc[i] = false := by
      rw [List.getElem?_eq_getElem hi] at hifree
      injection hifree
    have hstep : scanStepFree alloc[i] fc = fc + 1 := by
      simp [scanStepFree, hocc]
    rw [scanFreeRun_eq, dif_pos hi, hstep]
    by_cases hfound : count ≤ fc + 1
    · rw [if_pos hfound]
      rfl
    · rw [if_neg hfound]
      have hlt : i + 1 < idx + count := by omega
      exact ih (i + 1) (fc + 1) (by omega) (by omega) hlt (by omega)

theorem scanFreeRun_finds_aux2 (alloc : List Bool) (count idx : Nat)
    (hc : 1 ≤ count) (hbound : idx + count ≤ alloc.length)
    (hfree : ∀ j, idx ≤ j → j < idx + count → alloc[j]? = some false) :
    ∀ d i fc, idx - i ≤ d → i ≤ idx → (scanFreeRun alloc count i fc).isSome := by
  intro d
  induction d with
  | zero =>
    intro i fc h1 h2
    have heq : i = idx := by omega
    subst heq
    exact scanFreeRun_finds_aux1 alloc count i hc hbound hfree
      (i + count - i) i fc le_rfl le_rfl (by omega) (by omega)
  | succ d ih =>
    intro i fc h1 h2
    by_cases heq : i = idx
    · subst heq
      exact scanFreeRun_finds_aux1 alloc count i hc hbound hfree
        (i + count - i) i fc le_rfl le_rfl (by omega) (by omega)
    · have hlt : i < idx := by omega
      have hi : i < alloc.length := by omega
      rw [scanFreeRun_eq, dif_pos hi]
      by_cases hfound : count ≤ scanStepFree alloc[i] fc
      · rw [if_pos hfound]
        rfl
      · rw [if_neg hfound]
        exact ih (i + 1) _ (by omega) (by omega)

theorem scanFreeRun_finds (alloc : List Bool) (count idx i : Nat)
    (hc : 1 ≤ count) (hbound : idx + count ≤ alloc.length)
    (hfree : ∀ j, idx ≤ j → j < idx + count → alloc[j]? = some false)
    (hstart : i ≤ idx) : (scanFreeRun alloc count i 0).isSome :=
  scanFreeRun_finds_aux2 alloc count idx hc hbound hfree (idx - i) i 0 le_rfl hstart

/-- `D3D12DescriptorAllocator::AllocateDescriptors(count)` (part_003 lines
869-913).  On scan success the found range is marked occupied and
`searchStart` advances past it; on failure the heap grows via
`Grow(numDescriptors + count)` (part_003 lines 1012-1032): the new capacity
is `vgpuNextPowerOfTwo(numDescriptors + count)`, the occupancy vector is
resized, the first `oldSize` descriptor payloads are bulk-copied into the
fresh heap, and the returned index is the old capacity. -/
def allocateDescriptors (s : DescAllocator) (count : Nat) : Nat × DescAllocator :=
  match scanFreeRun s.allocatedDescriptors count s.searchStart 0 with
  | some foundIndex =>
      (foundIndex,
       { s with
         allocatedDescriptors := setRange true s.allocatedDescriptors foundIndex count,
         numAllocatedDescriptors := s.numAllocatedDescriptors + count,
         searchStart := foundIndex + count })
  | none =>
      let foundIndex := s.numDescriptors
      let newSize := vgpuNextPowerOfTwo (s.numDescriptors + count)
      (foundIndex,
       { numDescriptors := newSize,
         allocatedDescriptors :=
           setRange true (resizeFill s.allocatedDescriptors newSize) foundIndex count,
         searchStart := foundIndex + count,
         numAllocatedDescriptors := s.numAllocatedDescriptors + count,
         contents := fun j => if j < s.numDescriptors then s.contents j else 0 })

/-- `D3D12DescriptorAllocator::ReleaseDescriptors(baseIndex, count)`
(part_003 lines 915-938): clear the occupancy of the range and rewind
`searchStart` when the freed range starts before the cursor. -/
def releaseDescriptors (s : DescAllocator) (baseIndex count : Nat) : DescAllocator :=
  if count = 0 then s
  else
    { s with
      allocatedDescriptors := setRange false s.allocatedDescriptors baseIndex count,
      numAllocatedDescriptors := s.numAllocatedDescriptors - count,
      searchStart := if baseIndex < s.searchStart then baseIndex else s.searchStart }

/-- Membership of slot `j` in the index range `r = (base, count)`. -/
def RangeMem (r : Nat × Nat) (j : Nat) : Prop := r.1 ≤ j ∧ j < r.1 + r.2

instance (r : Nat × Nat) (j : Nat) : Decidable (RangeMem r j) := by
  unfold RangeMem; infer_instance

/-- Two index ranges share no slot. -/
def RangesDisjoint (a b : Nat × Nat) : Prop := ∀ j, ¬(RangeMem a j ∧ RangeMem b j)

theorem rangesDisjoint_symm (a b : Nat × Nat) (h : RangesDisjoint a b) :
    RangesDisjoint b a := fun j hj => h j ⟨hj.2, hj.1⟩

/-- Client events over one descriptor allocator: `Allocate(n)` and
`Release` of a previously returned, still-live range (identified by the
range value itself, matching the claim's precondition that only live
allocations are released). -/
inductive AllocOp where
  | alloc (n : Nat)
  | release (idx n : Nat)
deriving DecidableEq, Repr

/-- Step of the allocator together with the ghost list of live allocations. -/
def stepAllocOp : DescAllocator × List (Nat × Nat) → AllocOp → DescAllocator × List (Nat × Nat)
  | (s, live), .alloc n =>
    ((allocateDescriptors s n).2, live ++ [((allocateDescriptors s n).1, n)])
  | (s, live), .release idx n =>
    if (idx, n) ∈ live then
      (releaseDescriptors s idx n, live.erase (idx, n))
    else
      (s, live)

/-- `Init(capacity)`: all slots free, cursor at zero, blank heap payloads. -/
def allocStart (capacity : Nat) : DescAllocator :=
  { numDescriptors := capacity,
    allocatedDescriptors := List.replicate capacity false,
    searchStart := 0,
    numAllocatedDescriptors := 0,
    contents := fun _ => 0 }

def runAllocOps (capacity : Nat) (ops : List AllocOp) : DescAllocator × List (Nat × Nat) :=
  ops.foldl stepAllocOp (allocStart capacity, [])

/-- The allocator invariant: the capacity field tracks the occupancy vector,
every live range is in bounds and marked occupied, and live ranges are
pairwise disjoint. -/
def AllocInv (s : DescAllocator) (live : List (Nat × Nat)) : Prop :=
  s.numDescriptors = s.allocatedDescriptors.length ∧
  (∀ r ∈ live, ∀ j, RangeMem r j → s.allocatedDescriptors[j]? = some true) ∧
  live.Pairwise RangesDisjoint

theorem pairwise_rel_of_mem_erase {α : Type} [BEq α] [LawfulBEq α] {R : α → α → Prop}
    (hsymm : ∀ x y, R x y → R y x) :
    ∀ (l : List α) (a b : α), l.Pairwise R → a ∈ l → b ∈ l.erase a → R a b := by
  intro l
  induction l with
  | nil => intro a b _ ha _; exact absurd ha (List.not_mem_nil a)
  | cons c rest ih =>
    intro a b hp ha hb
    rcases List.pairwise_cons.mp hp with ⟨hhead, htail⟩
    by_cases hca : c = a
    · subst hca
      rw [List.erase_cons_head] at hb
      exact hhead b hb
    · rw [List.erase_cons_tail (by simpa using hca)] at hb
      rcases List.mem_cons.mp hb with hb | hb
      · subst hb
        have haRest : a ∈ rest := by
          rcases List.mem_cons.mp ha with h | h
          · exact absurd h.symm hca
          · exact h
        exact hsymm b a (hhead a haRest)
      · have haRest : a ∈ rest := by
          rcases List.mem_cons.mp ha with h | h
          · exact absurd h.symm hca
          · exact h
        exact ih a b htail haRest hb

theorem setRange_preserves_true (l : List Bool) (i c j : Nat)
    (h : l[j]? = some true) : (setRange true l i c)[j]? = some true := by
  rw [setRange_getElem?]
  by_cases hin : i ≤ j ∧ j < i + c
  · rw [if_pos hin, if_pos]
    have := List.getElem?_eq_some_iff.mp h
    exact this.1
  · rw [if_neg hin]; exact h

theorem stepAllocOp_inv (s : DescAllocator) (live : List (Nat × Nat)) (op : AllocOp)
    (hinv : AllocInv s live) :
    AllocInv (stepAllocOp (s, live) op).1 (stepAllocOp (s, live) op).2 := by
  rcases hinv with ⟨hlen, hmarks, hdisj⟩
  cases op with
  | alloc n =>
    rcases hscan : scanFreeRun s.allocatedDescriptors n s.searchStart 0 with _ | idx
    · -- grow path
      have hstep : stepAllocOp (s, live) (.alloc n) =
          ((allocateDescriptors s n).2, live ++ [((allocateDescriptors s n).1, n)]) := rfl
      rw [hstep]
      have halloc : allocateDescriptors s n =
          (s.numDescriptors,
           { numDescriptors := vgpuNextPowerOfTwo (s.numDescriptors + n),
             allocatedDescriptors :=
               setRange true
                 (resizeFill s.allocatedDescriptors (vgpuNextPowerOfTwo (s.numDescriptors + n)))
                 s.numDescriptors n,
             searchStart := s.numDescriptors + n,
             numAllocatedDescriptors := s.numAllocatedDescriptors + n,
             contents := fun j => if j < s.numDescriptors then s.contents j else 0 }) := by
        simp [allocateDescriptors, hscan]
      rw [halloc]
      have hsize : s.allocatedDescriptors.length ≤ vgpuNextPowerOfTwo (s.numDescriptors + n) := by
        have h1 := le_vgpuNextPowerOfTwo (s.numDescriptors + n)
        omega
      have hrlen : (resizeFill s.allocatedDescriptors
          (vgpuNextPowerOfTwo (s.numDescriptors + n))).length =
          vgpuNextPowerOfTwo (s.numDescriptors + n) :=
        resizeFill_length _ _ hsize
      refine ⟨?_, ?_, ?_⟩
      · rw [setRange_length, hrlen]
      · intro r hr j hj
        rcases List.mem_append.mp hr with hr | hr
        · have hold : s.allocatedDescriptors[j]? = some true := hmarks r hr j hj
          have hjlt : j < s.allocatedDescriptors.length :=
            (List.getElem?_eq_some_iff.mp hold).1
          rw [setRange_getElem?]
          have hnotin : ¬(s.numDescriptors ≤ j ∧ j < s.numDescriptors + n) := by omega
          rw [if_neg hnotin, resizeFill_getElem?_lt _ _ _ hsize hjlt]
          exact hold
        · simp only [List.mem_singleton] at hr
          subst hr
          rcases hj with ⟨hj1, hj2⟩
          simp only at hj1 hj2
          rw [setRange_getElem?, if_pos ⟨hj1, hj2⟩, if_pos]
          rw [hrlen]
          have h1 := le_vgpuNextPowerOfTwo (s.numDescriptors + n)
          omega
      · refine List.pairwise_append.mpr ⟨hdisj, List.pairwise_singleton _ _, ?_⟩
        intro r hr r2 hr2
        simp only [List.mem_singleton] at hr2
        subst hr2
        intro j ⟨hjr, hjn⟩
        have hold : s.allocatedDescriptors[j]? = some true := hmarks r hr j hjr
        have hjlt : j < s.allocatedDescriptors.length :=
          (List.getElem?_eq_some_iff.mp hold).1
        rcases hjn with ⟨hj1, _⟩
        simp only at hj1
        omega
    · -- found path
      have hstep : stepAllocOp (s, live) (.alloc n) =
          ((allocateDescriptors s n).2, live ++ [((allocateDescriptors s n).1, n)]) := rfl
      rw [hstep]
      have halloc : allocateDescriptors s n =
          (idx,
           { s with
             allocatedDescriptors := setRange true s.allocatedDescriptors idx n,
             numAllocatedDescriptors := s.numAllocatedDescriptors + n,
             searchStart := idx + n }) := by
        simp [allocateDescriptors, hscan]
      rw [halloc]
      rcases scanFreeRun_sound s.allocatedDescriptors n s.searchStart idx hscan with
        ⟨hbound, hfree⟩
      refine ⟨?_, ?_, ?_⟩
      · rw [setRange_length]; exact hlen
      · intro r hr j hj
        rcases List.mem_append.mp hr with hr | hr
        · exact setRange_preserves_true _ _ _ _ (hmarks r hr j hj)
        · simp only [List.mem_singleton] at hr
          subst hr
          rcases hj with ⟨hj1, hj2⟩
          simp only at hj1 hj2
          rw [setRange_getElem?, if_pos ⟨hj1, hj2⟩, if_pos (by omega)]
      · refine List.pairwise_append.mpr ⟨hdisj, List.pairwise_singleton _ _, ?_⟩
        intro r hr r2 hr2
        simp only [List.mem_singleton] at hr2
        subst hr2
        intro j ⟨hjr, hjn⟩
        have hold : s.allocatedDescriptors[j]? = some true := hmarks r hr j hjr
        rcases hjn with ⟨hj1, hj2⟩
        simp only at hj1 hj2
        have hnew : s.allocatedDescriptors[j]? = some false := hfree j hj1 hj2
        rw [hold] at hnew
        exact absurd hnew (by simp)
  | release idx n =>
    by_cases hmem : (idx, n) ∈ live
    · have hstep : stepAllocOp (s, live) (.release idx n) =
          (releaseDescriptors s idx n, live.erase (idx, n)) := by
        simp [stepAllocOp, hmem]
      rw [hstep]
      have herase : ∀ r ∈ live.erase (idx, n), RangesDisjoint (idx, n) r :=
        fun r hr => pairwise_rel_of_mem_erase rangesDisjoint_symm live (idx, n) r
          hdisj hmem hr
      by_cases hn0 : n = 0
      · subst hn0
        rw [releaseDescriptors, if_pos rfl]
        refine ⟨hlen, ?_, hdisj.sublist (List.erase_sublist _ _)⟩
        intro r hr j hj
        exact hmarks r (List.erase_subset _ _ hr) j hj
      · rw [releaseDescriptors, if_neg hn0]
        refine ⟨?_, ?_, hdisj.sublist (List.erase_sublist _ _)⟩
        · rw [setRange_length]; exact hlen
        · intro r hr j hj
          have hold : s.allocatedDescriptors[j]? = some true :=
            hmarks r (List.erase_subset _ _ hr) j hj
          rw [setRange_getElem?]
          have hnotin : ¬(idx ≤ j ∧ j < idx + n) := by
            intro hin
            exact herase r hr j ⟨⟨hin.1, hin.2⟩, hj⟩
          rw [if_neg hnotin]
          exact hold
    · have hstep : stepAllocOp (s, live) (.release idx n) = (s, live) := by
        simp [stepAllocOp, hmem]
      rw [hstep]
      exact ⟨hlen, hmarks, hdisj⟩

theorem runAllocOps_inv (capacity : Nat) (ops : List AllocOp) :
    AllocInv (runAllocOps capacity ops).1 (runAllocOps capacity ops).2 := by
  have hgen : ∀ (l : List AllocOp) (p : DescAllocator × List (Nat × Nat)),
      AllocInv p.1 p.2 → AllocInv (l.foldl stepAllocOp p).1 (l.foldl stepAllocOp p).2 := by
    intro l
    induction l with
    | nil => intro p hp; exact hp
    | cons op rest ih =>
      intro p hp
      exact ih (stepAllocOp p op) (stepAllocOp_inv p.1 p.2 op hp)
  refine hgen ops (allocStart capacity, []) ⟨?_, ?_, ?_⟩
  · simp [allocStart]
  · intro r hr; exact absurd hr (List.not_mem_nil r)
  · exact List.Pairwise.nil

theorem releaseDescriptors_reallocatable (s : DescAllocator) (live : List (Nat × Nat))
    (idx n k : Nat) (hinv : AllocInv s live) (hlive : (idx, n) ∈ live)
    (hk1 : 1 ≤ k) (hkn : k ≤ n) :
    (∀ j, idx ≤ j → j < idx + n →
      (releaseDescriptors s idx n).allocatedDescriptors[j]? = some false) ∧
    (releaseDescriptors s idx n).searchStart ≤ idx ∧
    (allocateDescriptors (releaseDescriptors s idx n) k).2.numDescriptors =
      (releaseDescriptors s idx n).numDescriptors := by
  rcases hinv with ⟨hlen, hmarks, _⟩
  have hn0 : n ≠ 0 := by omega
  have hrel : releaseDescriptors s idx n =
      { s with
        allocatedDescriptors := setRange false s.allocatedDescriptors idx n,
        numAllocatedDescriptors := s.numAllocatedDescriptors - n,
        searchStart := if idx < s.searchStart then idx else s.searchStart } := by
    rw [releaseDescriptors, if_neg hn0]
  have hbound : idx + n ≤ s.allocatedDescriptors.length := by
    have hlast : s.allocatedDescriptors[idx + n - 1]? = some true :=
      hmarks (idx, n) hlive (idx + n - 1) ⟨by omega, by omega⟩
    have := (List.getElem?_eq_some_iff.mp hlast).1
    omega
  have hfree : ∀ j, idx ≤ j → j < idx + n →
      (releaseDescriptors s idx n).allocatedDescriptors[j]? = some false := by
    intro j hj1 hj2
    rw [hrel]
    simp only
    rw [setRange_getElem?, if_pos ⟨hj1, hj2⟩, if_pos (by omega)]
  have hss : (releaseDescriptors s idx n).searchStart ≤ idx := by
    rw [hrel]
    simp only
    by_cases h : idx < s.searchStart
    · rw [if_pos h]
    · rw [if_neg h]; omega
  refine ⟨hfree, hss, ?_⟩
  have hsome : (scanFreeRun (releaseDescriptors s idx n).allocatedDescriptors k
      (releaseDescriptors s idx n).searchStart 0).isSome := by
    refine scanFreeRun_finds _ k idx _ hk1 ?_ ?_ hss
    · rw [hrel]; simp only [setRange_length]; omega
    · intro j hj1 hj2
      exact hfree j hj1 (by omega)
  rcases Option.isSome_iff_exists.mp hsome with ⟨idx2, hidx2⟩
  simp [allocateDescriptors, hidx2]

/-- Claim C2: over every interleaving of `Allocate(n)` / `Release(idx, n)`
events (releases only of live, previously allocated ranges), the live
allocations are pairwise non-overlapping; and after releasing a live range
`(idx, n)` its slots are all free again, the search cursor is rewound to at
most `idx`, and an immediately following `Allocate(k)` with `1 ≤ k ≤ n` is
served by the forward scan without growing the heap. -/
theorem descriptorAllocator_no_overlap_and_reuse (capacity : Nat)
    (ops : List AllocOp) :
    (runAllocOps capacity ops).2.Pairwise RangesDisjoint ∧
    (∀ idx n k, (idx, n) ∈ (runAllocOps capacity ops).2 → 1 ≤ k → k ≤ n →
      (∀ j, idx ≤ j → j < idx + n →
        (releaseDescriptors (runAllocOps capacity ops).1 idx n).allocatedDescriptors[j]?
          = some false) ∧
      (releaseDescriptors (runAllocOps capacity ops).1 idx n).searchStart ≤ idx ∧
      (allocateDescriptors (releaseDescriptors (runAllocOps capacity ops).1 idx n) k).2.numDescriptors
        = (releaseDescriptors (runAllocOps capacity ops).1 idx n).numDescriptors) := by
  have hinv := runAllocOps_inv capacity ops
  refine ⟨hinv.2.2, ?_⟩
  intro idx n k hlive hk1 hkn
  exact releaseDescriptors_reallocatable (runAllocOps capacity ops).1
    (runAllocOps capacity ops).2 idx n k hinv hlive hk1 hkn

theorem descriptorAllocator_no_overlap_and_reuse_witness :
    (runAllocOps 4 [AllocOp.alloc 2, AllocOp.alloc 2]).2.Pairwise RangesDisjoint ∧
    (allocateDescriptors
      (releaseDescriptors (runAllocOps 4 [AllocOp.alloc 2, AllocOp.alloc 2]).1 0 2) 2).2.numDescriptors
      = (releaseDescriptors (runAllocOps 4 [AllocOp.alloc 2, AllocOp.alloc 2]).1 0 2).numDescriptors := by
  have hthm := descriptorAllocator_no_overlap_and_reuse 4 [AllocOp.alloc 2, AllocOp.alloc 2]
  refine ⟨hthm.1, ?_⟩
  exact (hthm.2 0 2 2 (by decide) (by decide) (by decide)).2.2

/-- Claim C3: when `AllocateDescriptors(count)` finds no free run (the scan
fails), the allocator grows: the new capacity is the next power of two that
is at least `old capacity + count` (hence at least double the old capacity
when the old capacity is a power of two and `count ≥ 1`), the returned index
is the old capacity and the allocated range fits the new capacity, and both
the occupancy marks and the descriptor payloads of every index below the old
capacity are preserved across the growth. -/
theorem allocateDescriptors_grow_spec (s : DescAllocator) (count : Nat)
    (hwf : s.numDescriptors = s.allocatedDescriptors.length) (hc : 1 ≤ count)
    (hscan : scanFreeRun s.allocatedDescriptors count s.searchStart 0 = none) :
    (allocateDescriptors s count).2.numDescriptors
      = vgpuNextPowerOfTwo (s.numDescriptors + count) ∧
    (∀ m, s.numDescriptors = 2 ^ m →
      2 * s.numDescriptors ≤ (allocateDescriptors s count).2.numDescriptors) ∧
    (allocateDescriptors s count).1 = s.numDescriptors ∧
    (allocateDescriptors s count).1 + count ≤ (allocateDescriptors s count).2.numDescriptors ∧
    (∀ j, j < s.numDescriptors →
      (allocateDescriptors s count).2.allocatedDescriptors[j]? = s.allocatedDescriptors[j]? ∧
      (allocateDescriptors s count).2.contents j = s.contents j) := by
  have halloc : allocateDescriptors s count =
      (s.numDescriptors,
       { numDescriptors := vgpuNextPowerOfTwo (s.numDescriptors + count),
         allocatedDescriptors :=
           setRange true
             (resizeFill s.allocatedDescriptors (vgpuNextPowerOfTwo (s.numDescriptors + count)))
             s.numDescriptors count,
         searchStart := s.numDescriptors + count,
         numAllocatedDescriptors := s.numAllocatedDescriptors + count,
         contents := fun j => if j < s.numDescriptors then s.contents j else 0 }) := by
    simp [allocateDescriptors, hscan]
  rw [halloc]
  have hge := le_vgpuNextPowerOfTwo (s.numDescriptors + count)
  refine ⟨rfl, ?_, rfl, by simp only; omega, ?_⟩
  · intro m hm
    have hdbl := vgpuNextPowerOfTwo_double m count hc
    simp only
    rw [hm]
    exact hdbl
  · intro j hj
    have hjlen : j < s.allocatedDescriptors.length := by omega
    constructor
    · simp only
      rw [setRange_getElem?]
      have hnotin : ¬(s.numDescriptors ≤ j ∧ j < s.numDescriptors + count) := by omega
      rw [if_neg hnotin, resizeFill_getElem?_lt _ _ _ (by omega) hjlen]
    · simp only
      rw [if_pos hj]

theorem allocateDescriptors_grow_spec_witness :
    (allocateDescriptors (allocStart 0) 3).2.numDescriptors = vgpuNextPowerOfTwo 3 ∧
    (allocateDescriptors (allocStart 0) 3).1 = 0 := by
  have hthm := allocateDescriptors_grow_spec (allocStart 0) 3 (by simp [allocStart])
    (by omega) (by decide)
  exact ⟨hthm.1, hthm.2.2.1⟩

/-! ### Frame pacer

Embedding of the pacing tail of `D3D12Device::Submit` (part_003 lines
4919-4989).  Each submit signals the current frame slot's fence to the
constant value 1 (`queue.handle->Signal(queue.frameFences[frameIndex], 1)`),
increments the frame counter, and then — when at least
`VGPU_MAX_INFLIGHT_FRAMES` frames have been submitted — waits on the new
slot's fence until its completed value reaches 1.  The GPU is modelled as a
FIFO of pending signal operations; `gpuPending` is therefore exactly the set
of submitted-but-not-yet-fence-completed frames.  The fences are created at
value 0 and are never reset anywhere in the source (the only writes are the
`Signal(..., 1)` calls). -/

structure PacerState where
  frameCount : Nat
  fence0 : Nat
  fence1 : Nat
  gpuPending : List Nat
deriving DecidableEq, Repr

/-- `frameFences[slot]->GetCompletedValue()`. -/
def fenceValue (s : PacerState) (slot : Nat) : Nat :=
  if slot % 2 = 0 then s.fence0 else s.fence1

/-- The pacing-relevant steps of `Submit`: enqueue the GPU-side signal of the
current slot's fence to 1, advance the frame counter, and report whether the
pacer's wait (`frameFences[frameIndex]->GetCompletedValue() < 1` at
`frameCount ≥ VGPU_MAX_INFLIGHT_FRAMES`) would block. -/
def pacerSubmit (s : PacerState) : PacerState × Bool :=
  let s2 : PacerState :=
    { s with
      gpuPending := s.gpuPending ++ [s.frameCount % VGPU_MAX_INFLIGHT_FRAMES],
      frameCount := s.frameCount + 1 }
  (s2, decide (VGPU_MAX_INFLIGHT_FRAMES ≤ s2.frameCount ∧
    fenceValue s2 (s2.frameCount % VGPU_MAX_INFLIGHT_FRAMES) < 1))

/-- The GPU retires the oldest pending signal: the fence of that slot reaches
the signalled value 1. -/
def gpuComplete (s : PacerState) : PacerState :=
  match s.gpuPending with
  | [] => s
  | slot :: rest =>
    if slot % 2 = 0 then { s with gpuPending := rest, fence0 := 1 }
    else { s with gpuPending := rest, fence1 := 1 }

inductive PacerOp where
  | submit
  | gpu
deriving DecidableEq, Repr

/-- Run a schedule of CPU submits and GPU completions, accumulating whether
any submit's pacer wait would ever have blocked. -/
def pacerRun : PacerState × Bool → List PacerOp → PacerState × Bool
  | p, [] => p
  | (s, blocked), .submit :: rest =>
    pacerRun ((pacerSubmit s).1, blocked || (pacerSubmit s).2) rest
  | (s, blocked), .gpu :: rest => pacerRun (gpuComplete s, blocked) rest

def pacerStart : PacerState :=
  { frameCount := 0, fence0 := 0, fence1 := 0, gpuPending := [] }

/-- Claim C4, exhibiting the defect: after the GPU completes only the first
two frames' fence signals (bringing both slot fences to their terminal value
1, which the source never resets), three further submits all pass the pacer's
wait untouched — the wait never blocks again — leaving 3 frames submitted but
not fence-completed, exceeding MAX_INFLIGHT_FRAMES = 2.  The Vulkan backend
resets its fences after waiting (`vkResetFences`); the D3D12 backend does
not, so its sole backpressure mechanism stops working after the first
wrap-around. -/
theorem d3d12_frame_pacer_unbounded_inflight :
    (pacerRun (pacerStart, false)
      [PacerOp.submit, PacerOp.gpu, PacerOp.submit, PacerOp.gpu,
       PacerOp.submit, PacerOp.submit, PacerOp.submit]).2 = false ∧
    VGPU_MAX_INFLIGHT_FRAMES <
      (pacerRun (pacerStart, false)
        [PacerOp.submit, PacerOp.gpu, PacerOp.submit, PacerOp.gpu,
         PacerOp.submit, PacerOp.submit, PacerOp.submit]).1.gpuPending.length := by
  decide

/-! ### Command buffer pool

Embedding of `D3D12Device::BeginCommandBuffer` (part_003 lines 4837-4875):
under the pool mutex, `cmd_current = cmdBuffersCount++`; if `cmd_current`
reaches the pool size a new command buffer is constructed and pushed, else
`commandBuffer = commandBuffersPool.back()`; in both paths the function
returns `commandBuffersPool.back()`.  `Submit` resets `cmdBuffersCount = 0`
(line 4935).  Command buffers are identified by creation order. -/

structure CmdPoolState where
  cmdBuffersCount : Nat
  pool : List Nat
  nextId : Nat
deriving DecidableEq, Repr

def beginCommandBuffer (s : CmdPoolState) : CmdPoolState × Option Nat :=
  let cmdCurrent := s.cmdBuffersCount
  let s1 : CmdPoolState := { s with cmdBuffersCount := cmdCurrent + 1 }
  if s1.pool.length ≤ cmdCurrent then
    let s2 : CmdPoolState := { s1 with pool := s1.pool ++ [s1.nextId], nextId := s1.nextId + 1 }
    (s2, s2.pool.getLast?)
  else
    (s1, s1.pool.getLast?)

/-- The pool bookkeeping of `Submit`: `cmdBuffersCount = 0`. -/
def submitResetPool (s : CmdPoolState) : CmdPoolState :=
  { s with cmdBuffersCount := 0 }

def cmdPoolStart : CmdPoolState :=
  { cmdBuffersCount := 0, pool := [], nextId := 0 }

/-- Claim C8, exhibiting the defect: after a first frame that checks out two
command buffers (ids 0 and 1) and a `Submit`, the next frame's two successive
`BeginCommandBuffer` checkouts — with no intervening `Submit` — both return
command buffer 1, because the reuse path reads `commandBuffersPool.back()`
instead of `commandBuffersPool[cmd_current]`.  The two checkouts are not
pairwise distinct. -/
theorem beginCommandBuffer_duplicate_checkout :
    (beginCommandBuffer (submitResetPool
      (beginCommandBuffer (beginCommandBuffer cmdPoolStart).1).1)).2 = some 1 ∧
    (beginCommandBuffer (beginCommandBuffer (submitResetPool
      (beginCommandBuffer (beginCommandBuffer cmdPoolStart).1).1)).1).2 = some 1 ∧
    (beginCommandBuffer cmdPoolStart).2 = some 0 ∧
    (beginCommandBuffer (beginCommandBuffer cmdPoolStart).1).2 = some 1 := by
  decide

/-! ### Swapchain acquire

Embedding of `D3D12CommandBuffer::AcquireSwapchainTexture` (part_003 lines
2300-2383).  The native window's client size is read first; a zero width or
height (minimized window) returns null immediately.  Otherwise a size
mismatch triggers WaitIdle, destruction of the backbuffer wrappers, a native
`ResizeBuffers` (which can fail or report device loss) and a wrapper rebuild;
finally the current backbuffer is transitioned to render-target state and
returned. -/

structure SwapChainState where
  width : Nat
  height : Nat
  backbuffers : List Nat
  currentBackBufferIndex : Nat
  nextTextureId : Nat
deriving DecidableEq, Repr

inductive AcquireEffect where
  | waitIdle
  | destroyBackbuffers
  | resizeBuffers (w h : Nat)
  | transitionToRenderTarget (t : Nat)
deriving DecidableEq, Repr

def acquireSwapchainTexture (sc : SwapChainState) (clientWidth clientHeight : Nat)
    (resizeOk : Bool) (backBufferCount : Nat) :
    Option Nat × SwapChainState × List AcquireEffect :=
  if clientWidth = 0 ∨ clientHeight = 0 then
    (none, sc, [])
  else if clientWidth ≠ sc.width ∨ clientHeight ≠ sc.height then
    let scCleared : SwapChainState := { sc with backbuffers := [] }
    if resizeOk then
      let sc2 : SwapChainState :=
        { width := clientWidth, height := clientHeight,
          backbuffers := (List.range backBufferCount).map (fun i => sc.nextTextureId + i),
          currentBackBufferIndex := sc.currentBackBufferIndex,
          nextTextureId := sc.nextTextureId + backBufferCount }
      match sc2.backbuffers[sc2.currentBackBufferIndex]? with
      | some t =>
        (some t, sc2,
         [.waitIdle, .destroyBackbuffers, .resizeBuffers clientWidth clientHeight,
          .transitionToRenderTarget t])
      | none =>
        (none, sc2,
         [.waitIdle, .destroyBackbuffers, .resizeBuffers clientWidth clientHeight])
    else
      (none, scCleared,
       [.waitIdle, .destroyBackbuffers, .resizeBuffers clientWidth clientHeight])
  else
    match sc.backbuffers[sc.currentBackBufferIndex]? with
    | some t => (some t, sc, [.transitionToRenderTarget t])
    | none => (none, sc, [])

/-- Claim C10: when the window's client area has zero width or zero height,
`AcquireSwapchainTexture` returns null without resizing the swapchain,
destroying any backbuffer wrapper, or recording any state transition — the
swapchain state is untouched and no side effect is performed. -/
theorem acquireSwapchainTexture_zero_size (sc : SwapChainState)
    (clientWidth clientHeight : Nat) (resizeOk : Bool) (backBufferCount : Nat)
    (hzero : clientWidth = 0 ∨ clientHeight = 0) :
    acquireSwapchainTexture sc clientWidth clientHeight resizeOk backBufferCount
      = (none, sc, []) := by
  rw [acquireSwapchainTexture, if_pos hzero]

theorem acquireSwapchainTexture_zero_size_witness :
    acquireSwapchainTexture ⟨800, 600, [10, 11], 0, 12⟩ 0 600 true 2
      = (none, ⟨800, 600, [10, 11], 0, 12⟩, []) :=
  acquireSwapchainTexture_zero_size ⟨800, 600, [10, 11], 0, 12⟩ 0 600 true 2
    (Or.inl rfl)

/-! ### Bind group layout translation

Embedding of `D3D12Device::CreateBindGroupLayout` (part_003 lines 4097-4229).
Entries are folded left to right; a new descriptor range starts whenever the
mapped D3D12 range type differs from the previous entry's or the binding is
not the previous binding plus one (`currentBinding` starts at `~0u` and the
increment wraps at 2^32 as in uint32 arithmetic); otherwise the last range of
the family is extended.  A range-starting entry adds **1** to the family's
table size while a range-extending entry adds `entry.count` — mirroring the
source exactly. -/

inductive VGPUDescriptorType where
  | Sampler
  | SampledTexture
  | StorageTexture
  | ReadOnlyStorageTexture
  | ConstantBuffer
  | DynamicConstantBuffer
  | StorageBuffer
  | ReadOnlyStorageBuffer
deriving DecidableEq, Repr

inductive DRangeType where
  | SRV
  | UAV
  | CBV
  | SAMPLER
deriving DecidableEq, Repr

/-- The `switch (entry.descriptorType)` mapping (part_003 lines 4126-4159). -/
def toD3D12RangeType : VGPUDescriptorType → DRangeType
  | .Sampler => .SAMPLER
  | .SampledTexture => .SRV
  | .StorageTexture => .UAV
  | .ReadOnlyStorageTexture => .SRV
  | .ConstantBuffer => .CBV
  | .DynamicConstantBuffer => .CBV
  | .StorageBuffer => .UAV
  | .ReadOnlyStorageBuffer => .SRV

structure LayoutEntry where
  binding : Nat
  count : Nat
  descriptorType : VGPUDescriptorType
deriving DecidableEq, Repr

structure DRange where
  rangeType : DRangeType
  numDescriptors : Nat
  baseShaderRegister : Nat
  offsetInTable : Nat
deriving DecidableEq, Repr

structure BindGroupLayout where
  currentType : Option DRangeType
  currentBinding : Nat
  samplerDescriptorRanges : List DRange
  cbvUavSrvDescriptorRanges : List DRange
  descriptorTableSizeSamplers : Nat
  descriptorTableSizeCbvUavSrv : Nat
deriving DecidableEq, Repr

/-- `range.NumDescriptors += entry.count` on the last range of a family. -/
def extendLast : List DRange → Nat → List DRange
  | [], _ => []
  | [r], c => [{ r with numDescriptors := r.numDescriptors + c }]
  | r :: rest, c => r :: extendLast rest c

def bglStep (st : BindGroupLayout) (e : LayoutEntry) : BindGroupLayout :=
  let t := toD3D12RangeType e.descriptorType
  if st.currentType ≠ some t ∨ e.binding ≠ (st.currentBinding + 1) % 2 ^ 32 then
    if t = .SAMPLER then
      { st with
        currentType := some t,
        currentBinding := e.binding,
        samplerDescriptorRanges := st.samplerDescriptorRanges ++
          [⟨t, e.count, e.binding, st.descriptorTableSizeSamplers⟩],
        descriptorTableSizeSamplers := st.descriptorTableSizeSamplers + 1 }
    else
      { st with
        currentType := some t,
        currentBinding := e.binding,
        cbvUavSrvDescriptorRanges := st.cbvUavSrvDescriptorRanges ++
          [⟨t, e.count, e.binding, st.descriptorTableSizeCbvUavSrv⟩],
        descriptorTableSizeCbvUavSrv := st.descriptorTableSizeCbvUavSrv + 1 }
  else
    if t = .SAMPLER then
      { st with
        currentBinding := e.binding,
        samplerDescriptorRanges := extendLast st.samplerDescriptorRanges e.count,
        descriptorTableSizeSamplers := st.descriptorTableSizeSamplers + e.count }
    else
      { st with
        currentBinding := e.binding,
        cbvUavSrvDescriptorRanges := extendLast st.cbvUavSrvDescriptorRanges e.count,
        descriptorTableSizeCbvUavSrv := st.descriptorTableSizeCbvUavSrv + e.count }

def createBindGroupLayout (entries : List LayoutEntry) : BindGroupLayout :=
  entries.foldl bglStep
    { currentType := none, currentBinding := 2 ^ 32 - 1,
      samplerDescriptorRanges := [], cbvUavSrvDescriptorRanges := [],
      descriptorTableSizeSamplers := 0, descriptorTableSizeCbvUavSrv := 0 }

/-- Claim C6, exhibiting the defect: a layout with a single ConstantBuffer
entry of count 2 produces a range whose `NumDescriptors` is 2 but records a
CBV/UAV/SRV table size of 1, not the sum (2) of the entry counts — a
range-starting entry contributes 1 to the family total regardless of its
count, while a range-extending entry contributes its count.  The recorded
total is what `D3D12BindGroup::Update` allocates, while the ranges it then
iterates cover the full sum, so the two are inconsistent. -/
theorem createBindGroupLayout_total_undercount :
    (createBindGroupLayout [⟨0, 2, VGPUDescriptorType.ConstantBuffer⟩]).descriptorTableSizeCbvUavSrv = 1 ∧
    (List.map LayoutEntry.count [⟨0, 2, VGPUDescriptorType.ConstantBuffer⟩]).sum = 2 ∧
    (createBindGroupLayout [⟨0, 2, VGPUDescriptorType.ConstantBuffer⟩]).cbvUavSrvDescriptorRanges
      = [⟨DRangeType.CBV, 2, 0, 0⟩] ∧
    (createBindGroupLayout [⟨0, 1, VGPUDescriptorType.ConstantBuffer⟩,
        ⟨1, 1, VGPUDescriptorType.ConstantBuffer⟩]).cbvUavSrvDescriptorRanges
      = [⟨DRangeType.CBV, 2, 0, 0⟩] ∧
    (createBindGroupLayout [⟨0, 1, VGPUDescriptorType.ConstantBuffer⟩,
        ⟨2, 1, VGPUDescriptorType.ConstantBuffer⟩]).cbvUavSrvDescriptorRanges
      = [⟨DRangeType.CBV, 1, 0, 0⟩, ⟨DRangeType.CBV, 1, 2, 1⟩] := by
  decide

/-! ### Bind group update

Embedding of `D3D12BindGroup::Update` (part_003 lines 1766-2061) and the null
view writers `CreateNullSRV` / `CreateNullUAV` (lines 1748-1763).  For every
slot of every range of a family, the supplied entries are searched starting
at a cursor (`startIndex`) that advances past consumed entries; a CBV slot
whose matching entry carries a buffer receives a concrete
CreateConstantBufferView, a sampler slot whose matching entry carries a
sampler receives that concrete sampler, and any slot left unmatched receives
a null SRV / null UAV / null CBV / default sampler.  The concrete SRV and UAV
write paths are compiled out in the source (`#if TODO`), so SRV and UAV slots
always fall through to the null writers.  Writes are recorded as
(table-relative slot position, descriptor value) pairs. -/

structure BGEntry where
  binding : Nat
  buffer : Option Nat
  sampler : Option Nat
deriving DecidableEq, Repr

inductive DescValue where
  | nullSRV
  | nullUAV
  | nullCBV
  | cbvView (buffer : Nat)
  | samplerView (sampler : Nat)
  | defaultSampler
deriving DecidableEq, Repr

/-- The entry-search loop of the CBV/UAV/SRV family (part_003 lines
1790-1981): skip entries whose binding differs; for a CBV range, break at the
first matching entry and report its buffer; for SRV/UAV ranges the loop body
is compiled out (`#if TODO`), so matching entries are passed over.  Returns
`some buffer` when the loop broke at a CBV match, `none` when it ran out. -/
def cbvSearch (rt : DRangeType) (b : Nat) : List BGEntry → Option (Option Nat)
  | [] => none
  | e :: rest =>
    if e.binding ≠ b then cbvSearch rt b rest
    else if rt = DRangeType.CBV then some e.buffer
    else cbvSearch rt b rest

/-- The write performed for one CBV/UAV/SRV-family slot, together with the
`found` flag (part_003 lines 1797-2009): `found` is set only when a concrete
CBV was written; otherwise the null writer of the range type runs — except
for a (never occurring) sampler-typed range, which only logs an error and
writes nothing. -/
def cbvSlotValue (rt : DRangeType) (res : Option (Option Nat)) :
    Option DescValue × Bool :=
  match res with
  | some (some b) => (some (DescValue.cbvView b), true)
  | _ =>
    match rt with
    | .SRV => (some DescValue.nullSRV, false)
    | .UAV => (some DescValue.nullUAV, false)
    | .CBV => (some DescValue.nullCBV, false)
    | .SAMPLER => (none, false)

/-- The inner slot loop of the CBV/UAV/SRV family over one range:
`remaining` slots starting at slot `idx` of the range, threading the entry
cursor `st`. -/
def cbvRangeSlots (entries : List BGEntry) (rt : DRangeType) (base offset : Nat) :
    Nat → Nat → Nat → List (Nat × DescValue) × Nat
  | _, 0, st => ([], st)
  | idx, remaining + 1, st =>
    let v := cbvSlotValue rt (cbvSearch rt (base + idx) (entries.drop st))
    let st2 := if v.2 then st + 1 else st
    let r := cbvRangeSlots entries rt base offset (idx + 1) remaining st2
    (match v.1 with
     | some dv => (offset + idx, dv) :: r.1
     | none => r.1, r.2)

/-- The outer range loop of the CBV/UAV/SRV family. -/
def cbvFamilyWrites (entries : List BGEntry) :
    List DRange → Nat → List (Nat × DescValue) × Nat
  | [], st => ([], st)
  | r :: rest, st =>
    let a := cbvRangeSlots entries r.rangeType r.baseShaderRegister r.offsetInTable
      0 r.numDescriptors st
    let b := cbvFamilyWrites entries rest a.2
    (a.1 ++ b.1, b.2)

/-- The entry-search loop of the sampler family (part_003 lines 2031-2045):
the first entry with matching binding and non-null sampler wins. -/
def samplerSearch (b : Nat) : List BGEntry → Option Nat
  | [] => none
  | e :: rest =>
    match e.sampler with
    | some sid => if e.binding = b then some sid else samplerSearch b rest
    | none => samplerSearch b rest

/-- The inner slot loop of the sampler family; a found entry advances the
cursor twice (lines 2042 and 2055), an unmatched slot writes the default
sampler and leaves the cursor alone (the `continue` at line 2052). -/
def samplerRangeSlots (entries : List BGEntry) (base offset : Nat) :
    Nat → Nat → Nat → List (Nat × DescValue) × Nat
  | _, 0, st => ([], st)
  | idx, remaining + 1, st =>
    match samplerSearch (base + idx) (entries.drop st) with
    | some sid =>
      let r := samplerRangeSlots entries base offset (idx + 1) remaining (st + 2)
      ((offset + idx, DescValue.samplerView sid) :: r.1, r.2)
    | none =>
      let r := samplerRangeSlots entries base offset (idx + 1) remaining st
      ((offset + idx, DescValue.defaultSampler) :: r.1, r.2)

def samplerFamilyWrites (entries : List BGEntry) :
    List DRange → Nat → List (Nat × DescValue) × Nat
  | [], st => ([], st)
  | r :: rest, st =>
    let a := samplerRangeSlots entries r.baseShaderRegister r.offsetInTable
      0 r.numDescriptors st
    let b := samplerFamilyWrites entries rest a.2
    (a.1 ++ b.1, b.2)

/-- The CBV/UAV/SRV table writes of `D3D12BindGroup::Update` (guarded by
`descriptorTableSizeCbvUavSrv > 0`). -/
def updateCbvUavSrvWrites (layout : BindGroupLayout) (entries : List BGEntry) :
    List (Nat × DescValue) :=
  if 0 < layout.descriptorTableSizeCbvUavSrv then
    (cbvFamilyWrites entries layout.cbvUavSrvDescriptorRanges 0).1
  else []

/-- The sampler table writes of `D3D12BindGroup::Update` (guarded by
`descriptorTableSizeSamplers > 0`). -/
def updateSamplerWrites (layout : BindGroupLayout) (entries : List BGEntry) :
    List (Nat × DescValue) :=
  if 0 < layout.descriptorTableSizeSamplers then
    (samplerFamilyWrites entries layout.samplerDescriptorRanges 0).1
  else []

/-- Claim C5, counterexample to the claim as stated: a layout with one
SampledTexture binding (an SRV slot) updated with a matching entry that
supplies buffer 5 still writes a null SRV into the slot — the identical value
written when no entry is supplied at all — because the concrete SRV/UAV write
path is compiled out (`#if TODO`).  The matching supplied entry does not
receive a concrete view. -/
theorem bindGroup_update_srv_concrete_ignored :
    updateCbvUavSrvWrites
      (createBindGroupLayout [⟨0, 1, VGPUDescriptorType.SampledTexture⟩])
      [⟨0, some 5, none⟩] = [(0, DescValue.nullSRV)] ∧
    updateCbvUavSrvWrites
      (createBindGroupLayout [⟨0, 1, VGPUDescriptorType.SampledTexture⟩])
      [] = [(0, DescValue.nullSRV)] := by
  decide

/-- The ranges of a family tile the slot interval `[off, total)`: each range
starts at the running offset and contributes its `numDescriptors` slots. -/
def RangesTile : List DRange → Nat → Nat → Prop
  | [], off, total => off = total
  | r :: rest, off, total =>
    r.offsetInTable = off ∧ RangesTile rest (off + r.numDescriptors) total

theorem rangesTile_le : ∀ (l : List DRange) (off total : Nat),
    RangesTile l off total → off ≤ total := by
  intro l
  induction l with
  | nil => intro off total h; exact Nat.le_of_eq h
  | cons r rest ih =>
    intro off total h
    have := ih (off + r.numDescriptors) total h.2
    omega

theorem rangesTile_append_new : ∀ (l : List DRange) (off total : Nat)
    (t : DRangeType) (c b : Nat), RangesTile l off total →
    RangesTile (l ++ [⟨t, c, b, total⟩]) off (total + c) := by
  intro l
  induction l with
  | nil =>
    intro off total t c b h
    have h0 : off = total := h
    refine ⟨h0.symm, ?_⟩
    show off + c = total + c
    omega
  | cons r rest ih =>
    intro off total t c b h
    exact ⟨h.1, ih (off + r.numDescriptors) total t c b h.2⟩

theorem rangesTile_extendLast : ∀ (l : List DRange) (off total c : Nat),
    RangesTile l off total → l ≠ [] →
    RangesTile (extendLast l c) off (total + c) := by
  intro l
  induction l with
  | nil => intro off total c _ hne; exact absurd rfl hne
  | cons r rest ih =>
    intro off total c h _
    cases rest with
    | nil =>
      rcases h with ⟨h1, h2⟩
      -- h2 : RangesTile [] (off + r.numDescriptors) total
      exact ⟨h1, by simp only [RangesTile] at h2 ⊢; omega⟩
    | cons r2 rest2 =>
      exact ⟨h.1, ih (off + r.numDescriptors) total c h.2 (by simp)⟩

theorem extendLast_types (P : DRangeType → Prop) :
    ∀ (l : List DRange) (c : Nat), (∀ r ∈ l, P r.rangeType) →
      ∀ r ∈ extendLast l c, P r.rangeType := by
  intro l
  induction l with
  | nil => intro c _ r hr; exact absurd hr (List.not_mem_nil r)
  | cons a rest ih =>
    intro c hall r hr
    cases rest with
    | nil =>
      simp only [extendLast, List.mem_singleton] at hr
      subst hr
      exact hall a (List.mem_cons_self a [])
    | cons a2 rest2 =>
      simp only [extendLast] at hr
      rcases List.mem_cons.mp hr with hr | hr
      · subst hr; exact hall r (List.mem_cons_self r _)
      · exact ih c (fun x hx => hall x (List.mem_cons_of_mem a hx)) r hr

theorem extendLast_ne_nil : ∀ (l : List DRange) (c : Nat), l ≠ [] →
    extendLast l c ≠ [] := by
  intro l c hne
  cases l with
  | nil => exact absurd rfl hne
  | cons a rest =>
    cases rest with
    | nil => simp [extendLast]
    | cons a2 rest2 => simp [extendLast]

/-- Structural invariant of layouts built from entries of count 1: each
family's ranges tile `[0, tableSize)`, sampler-typed ranges live only in the
sampler family, and a live `currentType` guarantees the matching family is
nonempty. -/
def BglInv (st : BindGroupLayout) : Prop :=
  RangesTile st.cbvUavSrvDescriptorRanges 0 st.descriptorTableSizeCbvUavSrv ∧
  RangesTile st.samplerDescriptorRanges 0 st.descriptorTableSizeSamplers ∧
  (∀ r ∈ st.cbvUavSrvDescriptorRanges, r.rangeType ≠ DRangeType.SAMPLER) ∧
  (∀ t, st.currentType = some t →
    (t = DRangeType.SAMPLER → st.samplerDescriptorRanges ≠ []) ∧
    (t ≠ DRangeType.SAMPLER → st.cbvUavSrvDescriptorRanges ≠ []))

theorem bglStep_inv (st : BindGroupLayout) (e : LayoutEntry)
    (hinv : BglInv st) (hc : e.count = 1) : BglInv (bglStep st e) := by
  rcases hinv with ⟨htileC, htileS, htypes, hcur⟩
  by_cases hnew : st.currentType ≠ some (toD3D12RangeType e.descriptorType) ∨
      e.binding ≠ (st.currentBinding + 1) % 2 ^ 32
  · by_cases hts : toD3D12RangeType e.descriptorType = DRangeType.SAMPLER
    · have hstep : bglStep st e =
          { st with
            currentType := some (toD3D12RangeType e.descriptorType),
            currentBinding := e.binding,
            samplerDescriptorRanges := st.samplerDescriptorRanges ++
              [⟨toD3D12RangeType e.descriptorType, 1, e.binding,
                st.descriptorTableSizeSamplers⟩],
            descriptorTableSizeSamplers := st.descriptorTableSizeSamplers + 1 } := by
        simp only [bglStep]
        rw [if_pos hnew, if_pos hts, hc]
      rw [hstep]
      refine ⟨htileC, ?_, htypes, ?_⟩
      · exact rangesTile_append_new st.samplerDescriptorRanges 0
          st.descriptorTableSizeSamplers (toD3D12RangeType e.descriptorType)
          1 e.binding htileS
      · intro t ht
        simp only [Option.some.injEq] at ht
        subst ht
        refine ⟨fun _ => by simp, fun hcontra => absurd hts hcontra⟩
    · have hstep : bglStep st e =
          { st with
            currentType := some (toD3D12RangeType e.descriptorType),
            currentBinding := e.binding,
            cbvUavSrvDescriptorRanges := st.cbvUavSrvDescriptorRanges ++
              [⟨toD3D12RangeType e.descriptorType, 1, e.binding,
                st.descriptorTableSizeCbvUavSrv⟩],
            descriptorTableSizeCbvUavSrv := st.descriptorTableSizeCbvUavSrv + 1 } := by
        simp only [bglStep]
        rw [if_pos hnew, if_neg hts, hc]
      rw [hstep]
      refine ⟨?_, htileS, ?_, ?_⟩
      · exact rangesTile_append_new st.cbvUavSrvDescriptorRanges 0
          st.descriptorTableSizeCbvUavSrv (toD3D12RangeType e.descriptorType)
          1 e.binding htileC
      · intro r hr
        rcases List.mem_append.mp hr with hr | hr
        · exact htypes r hr
        · simp only [List.mem_singleton] at hr
          subst hr
          exact hts
      · intro t ht
        simp only [Option.some.injEq] at ht
        subst ht
        refine ⟨fun hcontra => absurd hcontra hts, fun _ => by simp⟩
  · push_neg at hnew
    have hcond : ¬(st.currentType ≠ some (toD3D12RangeType e.descriptorType) ∨
        e.binding ≠ (st.currentBinding + 1) % 2 ^ 32) := by
      push_neg
      exact hnew
    have hcurT := hcur (toD3D12RangeType e.descriptorType) hnew.1
    by_cases hts : toD3D12RangeType e.descriptorType = DRangeType.SAMPLER
    · have hstep : bglStep st e =
          { st with
            currentBinding := e.binding,
            samplerDescriptorRanges := extendLast st.samplerDescriptorRanges e.count,
            descriptorTableSizeSamplers := st.descriptorTableSizeSamplers + e.count } := by
        simp only [bglStep]
        rw [if_neg hcond, if_pos hts]
      rw [hstep]
      have hne := hcurT.1 hts
      refine ⟨htileC, rangesTile_extendLast _ _ _ _ htileS hne, htypes, ?_⟩
      intro t ht
      have hcur2 := hcur t ht
      exact ⟨fun h2 => extendLast_ne_nil _ _ (hcur2.1 h2), hcur2.2⟩
    · have hstep : bglStep st e =
          { st with
            currentBinding := e.binding,
            cbvUavSrvDescriptorRanges := extendLast st.cbvUavSrvDescriptorRanges e.count,
            descriptorTableSizeCbvUavSrv := st.descriptorTableSizeCbvUavSrv + e.count } := by
        simp only [bglStep]
        rw [if_neg hcond, if_neg hts]
      rw [hstep]
      have hne := hcurT.2 hts
      refine ⟨rangesTile_extendLast _ _ _ _ htileC hne, htileS, ?_, ?_⟩
      · exact extendLast_types (fun t => t ≠ DRangeType.SAMPLER) _ e.count htypes
      · intro t ht
        have hcur2 := hcur t ht
        exact ⟨hcur2.1, fun h2 => extendLast_ne_nil _ _ (hcur2.2 h2)⟩

theorem createBindGroupLayout_inv (layoutEntries : List LayoutEntry)
    (hcount : ∀ e ∈ layoutEntries, e.count = 1) :
    BglInv (createBindGroupLayout layoutEntries) := by
  have hgen : ∀ (l : List LayoutEntry) (st : BindGroupLayout), BglInv st →
      (∀ e ∈ l, e.count = 1) → BglInv (l.foldl bglStep st) := by
    intro l
    induction l with
    | nil => intro st hst _; exact hst
    | cons e rest ih =>
      intro st hst hcnt
      exact ih (bglStep st e) (bglStep_inv st e hst (hcnt e (List.mem_cons_self e rest)))
        (fun x hx => hcnt x (List.mem_cons_of_mem e hx))
  refine hgen layoutEntries _ ⟨rfl, rfl, ?_, ?_⟩ hcount
  · intro r hr; exact absurd hr (List.not_mem_nil r)
  · intro t ht; exact absurd ht (by simp)

theorem cbvSearch_eq_some (rt : DRangeType) (b : Nat) :
    ∀ (l : List BGEntry) (ob : Option Nat), cbvSearch rt b l = some ob →
      rt = DRangeType.CBV ∧ ∃ e ∈ l, e.binding = b ∧ e.buffer = ob := by
  intro l
  induction l with
  | nil => intro ob h; exact absurd h (by simp [cbvSearch])
  | cons e rest ih =>
    intro ob h
    by_cases hb : e.binding ≠ b
    · rw [cbvSearch, if_pos hb] at h
      rcases ih ob h with ⟨hrt, e2, he2, hprop⟩
      exact ⟨hrt, e2, List.mem_cons_of_mem e he2, hprop⟩
    · rw [cbvSearch, if_neg hb] at h
      by_cases hrt : rt = DRangeType.CBV
      · rw [if_pos hrt] at h
        injection h with h
        push_neg at hb
        exact ⟨hrt, e, List.mem_cons_self e rest, hb, h⟩
      · rw [if_neg hrt] at h
        rcases ih ob h with ⟨hrt2, e2, he2, hprop⟩
        exact ⟨hrt2, e2, List.mem_cons_of_mem e he2, hprop⟩

theorem cbvSearch_none_of_no_match (rt : DRangeType) (b : Nat) :
    ∀ (l : List BGEntry), (∀ e ∈ l, e.binding ≠ b) → cbvSearch rt b l = none := by
  intro l
  induction l with
  | nil => intro _; rfl
  | cons e rest ih =>
    intro hno
    have hb : e.binding ≠ b := hno e (List.mem_cons_self e rest)
    rw [cbvSearch, if_pos hb]
    exact ih (fun x hx => hno x (List.mem_cons_of_mem e hx))

theorem samplerSearch_eq_some (b : Nat) :
    ∀ (l : List BGEntry) (sid : Nat), samplerSearch b l = some sid →
      ∃ e ∈ l, e.binding = b ∧ e.sampler = some sid := by
  intro l
  induction l with
  | nil => intro sid h; exact absurd h (by simp [samplerSearch])
  | cons e rest ih =>
    intro sid h
    rw [samplerSearch] at h
    rcases hs : e.sampler with _ | sid2
    · rw [hs] at h
      simp only [] at h
      rcases ih sid h with ⟨e2, he2, hprop⟩
      exact ⟨e2, List.mem_cons_of_mem e he2, hprop⟩
    · rw [hs] at h
      simp only [] at h
      by_cases hb : e.binding = b
      · rw [if_pos hb] at h
        injection h with h
        subst h
        exact ⟨e, List.mem_cons_self e rest, hb, hs⟩
      · rw [if_neg hb] at h
        rcases ih sid h with ⟨e2, he2, hprop⟩
        exact ⟨e2, List.mem_cons_of_mem e he2, hprop⟩

theorem samplerSearch_none_of_no_match (b : Nat) :
    ∀ (l : List BGEntry), (∀ e ∈ l, e.binding ≠ b) → samplerSearch b l = none := by
  intro l
  induction l with
  | nil => intro _; rfl
  | cons e rest ih =>
    intro hno
    have hb : e.binding ≠ b := hno e (List.mem_cons_self e rest)
    rw [samplerSearch]
    rcases hs : e.sampler with _ | sid
    · exact ih (fun x hx => hno x (List.mem_cons_of_mem e hx))
    · simp only []
      rw [if_neg hb]
      exact ih (fun x hx => hno x (List.mem_cons_of_mem e hx))

theorem cbvSlotValue_isSome (rt : DRangeType) (res : Option (Option Nat))
    (hrt : rt ≠ DRangeType.SAMPLER) (hres : ∀ ob, res = some ob → rt = DRangeType.CBV) :
    ∃ dv, (cbvSlotValue rt res).1 = some dv := by
  rcases res with _ | ob
  · cases rt with
    | SRV => exact ⟨DescValue.nullSRV, rfl⟩
    | UAV => exact ⟨DescValue.nullUAV, rfl⟩
    | CBV => exact ⟨DescValue.nullCBV, rfl⟩
    | SAMPLER => exact absurd rfl hrt
  · rcases ob with _ | bf
    · cases rt with
      | SRV => exact ⟨DescValue.nullSRV, rfl⟩
      | UAV => exact ⟨DescValue.nullUAV, rfl⟩
      | CBV => exact ⟨DescValue.nullCBV, rfl⟩
      | SAMPLER => exact absurd rfl hrt
    · exact ⟨DescValue.cbvView bf, rfl⟩

theorem cbvRangeSlots_positions (entries : List BGEntry) (rt : DRangeType)
    (base offset : Nat) (hrt : rt ≠ DRangeType.SAMPLER) :
    ∀ (remaining idx st : Nat),
      ((cbvRangeSlots entries rt base offset idx remaining st).1).map Prod.fst
        = (List.range remaining).map (fun k => offset + idx + k) := by
  intro remaining
  induction remaining with
  | zero => intro idx st; rfl
  | succ remaining ih =>
    intro idx st
    have hsome : ∀ ob, cbvSearch rt (base + idx) (entries.drop st) = some ob →
        rt = DRangeType.CBV := fun ob h => (cbvSearch_eq_some rt (base + idx) _ ob h).1
    rcases cbvSlotValue_isSome rt (cbvSearch rt (base + idx) (entries.drop st)) hrt hsome
      with ⟨dv, hdv⟩
    simp only [cbvRangeSlots, hdv]
    rw [List.range_succ_eq_map, List.map_cons, List.map_cons, List.map_map, ih]
    refine congrArg₂ List.cons rfl ?_
    refine List.map_congr_left ?_
    intro k _
    simp only [Function.comp]
    omega

theorem samplerRangeSlots_positions (entries : List BGEntry) (base offset : Nat) :
    ∀ (remaining idx st : Nat),
      ((samplerRangeSlots entries base offset idx remaining st).1).map Prod.fst
        = (List.range remaining).map (fun k => offset + idx + k) := by
  intro remaining
  induction remaining with
  | zero => intro idx st; rfl
  | succ remaining ih =>
    intro idx st
    rcases hres : samplerSearch (base + idx) (entries.drop st) with _ | sid
    · simp only [samplerRangeSlots, hres]
      rw [List.range_succ_eq_map, List.map_cons, List.map_cons, List.map_map, ih]
      refine congrArg₂ List.cons rfl ?_
      refine List.map_congr_left ?_
      intro k _
      simp only [Function.comp]
      omega
    · simp only [samplerRangeSlots, hres]
      rw [List.range_succ_eq_map, List.map_cons, List.map_cons, List.map_map, ih]
      refine congrArg₂ List.cons rfl ?_
      refine List.map_congr_left ?_
      intro k _
      simp only [Function.comp]
      omega

theorem cbvFamilyWrites_positions (entries : List BGEntry) :
    ∀ (ranges : List DRange) (st off total : Nat), RangesTile ranges off total →
      (∀ r ∈ ranges, r.rangeType ≠ DRangeType.SAMPLER) →
      ((cbvFamilyWrites entries ranges st).1).map Prod.fst
        = (List.range (total - off)).map (fun k => off + k) := by
  intro ranges
  induction ranges with
  | nil =>
    intro st off total htile _
    have h0 : off = total := htile
    subst h0
    simp [cbvFamilyWrites]
  | cons r rest ih =>
    intro st off total htile htypes
    rcases htile with ⟨hoff, htile2⟩
    have hle : off + r.numDescriptors ≤ total := rangesTile_le rest _ total htile2
    have hrt : r.rangeType ≠ DRangeType.SAMPLER := htypes r (List.mem_cons_self r rest)
    simp only [cbvFamilyWrites, List.map_append]
    rw [cbvRangeSlots_positions entries r.rangeType r.baseShaderRegister r.offsetInTable hrt,
      ih _ (off + r.numDescriptors) total htile2
        (fun x hx => htypes x (List.mem_cons_of_mem r hx)), hoff]
    have hsplit : total - off = r.numDescriptors + (total - off - r.numDescriptors) := by
      omega
    rw [hsplit, List.range_add, List.map_append, List.map_map]
    refine congrArg₂ List.append ?_ ?_
    · refine List.map_congr_left ?_
      intro k _
      omega
    · have hsub : total - (off + r.numDescriptors) = total - off - r.numDescriptors := by
        omega
      rw [hsub]
      refine List.map_congr_left ?_
      intro k _
      simp only [Function.comp]
      omega

theorem samplerFamilyWrites_positions (entries : List BGEntry) :
    ∀ (ranges : List DRange) (st off total : Nat), RangesTile ranges off total →
      ((samplerFamilyWrites entries ranges st).1).map Prod.fst
        = (List.range (total - off)).map (fun k => off + k) := by
  intro ranges
  induction ranges with
  | nil =>
    intro st off total htile
    have h0 : off = total := htile
    subst h0
    simp [samplerFamilyWrites]
  | cons r rest ih =>
    intro st off total htile
    rcases htile with ⟨hoff, htile2⟩
    have hle : off + r.numDescriptors ≤ total := rangesTile_le rest _ total htile2
    simp only [samplerFamilyWrites, List.map_append]
    rw [samplerRangeSlots_positions entries r.baseShaderRegister r.offsetInTable,
      ih _ (off + r.numDescriptors) total htile2, hoff]
    have hsplit : total - off = r.numDescriptors + (total - off - r.numDescriptors) := by
      omega
    rw [hsplit, List.range_add, List.map_append, List.map_map]
    refine congrArg₂ List.append ?_ ?_
    · refine List.map_congr_left ?_
      intro k _
      omega
    · have hsub : total - (off + r.numDescriptors) = total - off - r.numDescriptors := by
        omega
      rw [hsub]
      refine List.map_congr_left ?_
      intro k _
      simp only [Function.comp]
      omega

theorem cbvSlot_spec (entries : List BGEntry) (rt : DRangeType) (b st : Nat) :
    (rt = DRangeType.SRV →
      (cbvSlotValue rt (cbvSearch rt b (entries.drop st))).1 = some DescValue.nullSRV) ∧
    (rt = DRangeType.UAV →
      (cbvSlotValue rt (cbvSearch rt b (entries.drop st))).1 = some DescValue.nullUAV) ∧
    (rt = DRangeType.CBV →
      (cbvSlotValue rt (cbvSearch rt b (entries.drop st))).1 = some DescValue.nullCBV ∨
      ∃ e ∈ entries, e.binding = b ∧ ∃ bf, e.buffer = some bf ∧
        (cbvSlotValue rt (cbvSearch rt b (entries.drop st))).1 =
          some (DescValue.cbvView bf)) ∧
    ((∀ e ∈ entries, e.binding ≠ b) → rt ≠ DRangeType.SAMPLER →
      (cbvSlotValue rt (cbvSearch rt b (entries.drop st))).1 = some DescValue.nullSRV ∨
      (cbvSlotValue rt (cbvSearch rt b (entries.drop st))).1 = some DescValue.nullUAV ∨
      (cbvSlotValue rt (cbvSearch rt b (entries.drop st))).1 = some DescValue.nullCBV) := by
  rcases hres : cbvSearch rt b (entries.drop st) with _ | ob
  · refine ⟨?_, ?_, ?_, ?_⟩
    · intro h; subst h; rfl
    · intro h; subst h; rfl
    · intro h; subst h; exact Or.inl rfl
    · intro _ hrtS
      cases rt with
      | SRV => exact Or.inl rfl
      | UAV => exact Or.inr (Or.inl rfl)
      | CBV => exact Or.inr (Or.inr rfl)
      | SAMPLER => exact absurd rfl hrtS
  · rcases cbvSearch_eq_some rt b _ ob hres with ⟨hrt, e, he, hbind, hbuf⟩
    subst hrt
    have hee : e ∈ entries := List.drop_subset st entries he
    refine ⟨?_, ?_, ?_, ?_⟩
    · intro h; exact absurd h (by simp)
    · intro h; exact absurd h (by simp)
    · intro _
      rcases ob with _ | bf
      · exact Or.inl rfl
      · exact Or.inr ⟨e, hee, hbind, bf, hbuf, rfl⟩
    · intro hno _
      exact absurd hbind (hno e hee)

theorem cbvRangeSlots_values (entries : List BGEntry) (rt : DRangeType)
    (base offset : Nat) :
    ∀ (remaining idx st : Nat),
      ∀ w ∈ (cbvRangeSlots entries rt base offset idx remaining st).1,
        ∃ j, idx ≤ j ∧ j < idx + remaining ∧ w.1 = offset + j ∧
          (rt = DRangeType.SRV → w.2 = DescValue.nullSRV) ∧
          (rt = DRangeType.UAV → w.2 = DescValue.nullUAV) ∧
          (rt = DRangeType.CBV → w.2 = DescValue.nullCBV ∨
            ∃ e ∈ entries, e.binding = base + j ∧ ∃ bf, e.buffer = some bf ∧
              w.2 = DescValue.cbvView bf) ∧
          ((∀ e ∈ entries, e.binding ≠ base + j) →
            w.2 = DescValue.nullSRV ∨ w.2 = DescValue.nullUAV ∨
              w.2 = DescValue.nullCBV) := by
  intro remaining
  induction remaining with
  | zero => intro idx st w hw; exact absurd hw (List.not_mem_nil w)
  | succ remaining ih =>
    intro idx st w hw
    obtain ⟨hsrv, huav, hcbv, hnomatch⟩ := cbvSlot_spec entries rt (base + idx) st
    rcases hv : (cbvSlotValue rt (cbvSearch rt (base + idx) (entries.drop st))).1
      with _ | dv
    · simp only [cbvRangeSlots, hv] at hw
      rcases ih (idx + 1) _ w hw with ⟨j, hj1, hj2, hrest⟩
      exact ⟨j, by omega, by omega, hrest⟩
    · simp only [cbvRangeSlots, hv] at hw
      rcases List.mem_cons.mp hw with hw | hw
      · subst hw
        refine ⟨idx, le_rfl, by omega, rfl, ?_, ?_, ?_, ?_⟩
        · intro h
          have h4 := hsrv h
          rw [hv] at h4
          exact Option.some.inj h4
        · intro h
          have h4 := huav h
          rw [hv] at h4
          exact Option.some.inj h4
        · intro h
          rcases hcbv h with h2 | ⟨e, he, hbind, bf, hbuf, h2⟩
          · rw [hv] at h2
            exact Or.inl (Option.some.inj h2)
          · rw [hv] at h2
            exact Or.inr ⟨e, he, hbind, bf, hbuf, Option.some.inj h2⟩
        · intro hno
          have hrtS : rt ≠ DRangeType.SAMPLER := by
            intro heq
            subst heq
            rcases hres2 : cbvSearch DRangeType.SAMPLER (base + idx) (entries.drop st)
              with _ | ob
            · rw [hres2] at hv
              exact absurd hv (by simp [cbvSlotValue])
            · have hcbv2 := (cbvSearch_eq_some DRangeType.SAMPLER (base + idx) _ ob hres2).1
              exact absurd hcbv2 (by decide)
          rcases hnomatch hno hrtS with h2 | h2 | h2 <;> rw [hv] at h2
          · exact Or.inl (Option.some.inj h2)
          · exact Or.inr (Or.inl (Option.some.inj h2))
          · exact Or.inr (Or.inr (Option.some.inj h2))
      · rcases ih (idx + 1) _ w hw with ⟨j, hj1, hj2, hrest⟩
        exact ⟨j, by omega, by omega, hrest⟩

theorem samplerRangeSlots_values (entries : List BGEntry) (base offset : Nat) :
    ∀ (remaining idx st : Nat),
      ∀ w ∈ (samplerRangeSlots entries base offset idx remaining st).1,
        ∃ j, idx ≤ j ∧ j < idx + remaining ∧ w.1 = offset + j ∧
          (w.2 = DescValue.defaultSampler ∨
            ∃ e ∈ entries, e.binding = base + j ∧ ∃ sid, e.sampler = some sid ∧
              w.2 = DescValue.samplerView sid) ∧
          ((∀ e ∈ entries, e.binding ≠ base + j) →
            w.2 = DescValue.defaultSampler) := by
  intro remaining
  induction remaining with
  | zero => intro idx st w hw; exact absurd hw (List.not_mem_nil w)
  | succ remaining ih =>
    intro idx st w hw
    rcases hres : samplerSearch (base + idx) (entries.drop st) with _ | sid
    · simp only [samplerRangeSlots, hres] at hw
      rcases List.mem_cons.mp hw with hw | hw
      · subst hw
        exact ⟨idx, le_rfl, by omega, rfl, Or.inl rfl, fun _ => rfl⟩
      · rcases ih (idx + 1) _ w hw with ⟨j, hj1, hj2, hrest⟩
        exact ⟨j, by omega, by omega, hrest⟩
    · simp only [samplerRangeSlots, hres] at hw
      rcases List.mem_cons.mp hw with hw | hw
      · subst hw
        rcases samplerSearch_eq_some (base + idx) _ sid hres with ⟨e, he, hbind, hsamp⟩
        have hee : e ∈ entries := List.drop_subset st entries he
        refine ⟨idx, le_rfl, by omega, rfl,
          Or.inr ⟨e, hee, hbind, sid, hsamp, rfl⟩, ?_⟩
        intro hno
        exact absurd hbind (hno e hee)
      · rcases ih (idx + 1) _ w hw with ⟨j, hj1, hj2, hrest⟩
        exact ⟨j, by omega, by omega, hrest⟩

theorem cbvFamilyWrites_values (entries : List BGEntry) :
    ∀ (ranges : List DRange) (st : Nat),
      ∀ w ∈ (cbvFamilyWrites entries ranges st).1,
        ∃ r ∈ ranges, ∃ j, j < r.numDescriptors ∧ w.1 = r.offsetInTable + j ∧
          (r.rangeType = DRangeType.SRV → w.2 = DescValue.nullSRV) ∧
          (r.rangeType = DRangeType.UAV → w.2 = DescValue.nullUAV) ∧
          (r.rangeType = DRangeType.CBV → w.2 = DescValue.nullCBV ∨
            ∃ e ∈ entries, e.binding = r.baseShaderRegister + j ∧
              ∃ bf, e.buffer = some bf ∧ w.2 = DescValue.cbvView bf) ∧
          ((∀ e ∈ entries, e.binding ≠ r.baseShaderRegister + j) →
            w.2 = DescValue.nullSRV ∨ w.2 = DescValue.nullUAV ∨
              w.2 = DescValue.nullCBV) := by
  intro ranges
  induction ranges with
  | nil => intro st w hw; exact absurd hw (List.not_mem_nil w)
  | cons r rest ih =>
    intro st w hw
    simp only [cbvFamilyWrites] at hw
    rcases List.mem_append.mp hw with hw | hw
    · rcases cbvRangeSlots_values entries r.rangeType r.baseShaderRegister
        r.offsetInTable r.numDescriptors 0 st w hw with
        ⟨j, _, hj2, hpos, hprops⟩
      exact ⟨r, List.mem_cons_self r rest, j, by omega, hpos, hprops⟩
    · rcases ih _ w hw with ⟨r2, hr2, hrest⟩
      exact ⟨r2, List.mem_cons_of_mem r hr2, hrest⟩

theorem samplerFamilyWrites_values (entries : List BGEntry) :
    ∀ (ranges : List DRange) (st : Nat),
      ∀ w ∈ (samplerFamilyWrites entries ranges st).1,
        ∃ r ∈ ranges, ∃ j, j < r.numDescriptors ∧ w.1 = r.offsetInTable + j ∧
          (w.2 = DescValue.defaultSampler ∨
            ∃ e ∈ entries, e.binding = r.baseShaderRegister + j ∧
              ∃ sid, e.sampler = some sid ∧ w.2 = DescValue.samplerView sid) ∧
          ((∀ e ∈ entries, e.binding ≠ r.baseShaderRegister + j) →
            w.2 = DescValue.defaultSampler) := by
  intro ranges
  induction ranges with
  | nil => intro st w hw; exact absurd hw (List.not_mem_nil w)
  | cons r rest ih =>
    intro st w hw
    simp only [samplerFamilyWrites] at hw
    rcases List.mem_append.mp hw with hw | hw
    · rcases samplerRangeSlots_values entries r.baseShaderRegister
        r.offsetInTable r.numDescriptors 0 st w hw with
        ⟨j, _, hj2, hpos, hprops⟩
      exact ⟨r, List.mem_cons_self r rest, j, by omega, hpos, hprops⟩
    · rcases ih _ w hw with ⟨r2, hr2, hrest⟩
      exact ⟨r2, List.mem_cons_of_mem r hr2, hrest⟩

/-- Claim C5 (amended): after `Update(entries)` on a bind group whose layout
was built from entries of count 1, every slot of the CBV/UAV/SRV table and of
the sampler table receives exactly one write (the written positions are
exactly `0, …, tableSize - 1`, in order), and every written value is defined:
a slot whose binding matches no supplied entry receives a null SRV / null
UAV / null CBV or a default sampler; a concrete view is written only from a
supplied entry with the slot's binding, and only for CBV slots (a matching
entry carrying a buffer) and sampler slots (a matching entry carrying a
sampler) — SRV and UAV slots always receive null views even when a matching
entry is supplied, because their concrete-write path is disabled in the
source. -/
theorem bindGroup_update_null_fill (layoutEntries : List LayoutEntry)
    (entries : List BGEntry) (L : BindGroupLayout)
    (hL : L = createBindGroupLayout layoutEntries)
    (hcount : ∀ e ∈ layoutEntries, e.count = 1) :
    ((updateCbvUavSrvWrites L entries).map Prod.fst
      = List.range L.descriptorTableSizeCbvUavSrv) ∧
    ((updateSamplerWrites L entries).map Prod.fst
      = List.range L.descriptorTableSizeSamplers) ∧
    (∀ w ∈ updateCbvUavSrvWrites L entries,
      ∃ r ∈ L.cbvUavSrvDescriptorRanges, ∃ j, j < r.numDescriptors ∧
        w.1 = r.offsetInTable + j ∧
        (r.rangeType = DRangeType.SRV → w.2 = DescValue.nullSRV) ∧
        (r.rangeType = DRangeType.UAV → w.2 = DescValue.nullUAV) ∧
        (r.rangeType = DRangeType.CBV → w.2 = DescValue.nullCBV ∨
          ∃ e ∈ entries, e.binding = r.baseShaderRegister + j ∧
            ∃ bf, e.buffer = some bf ∧ w.2 = DescValue.cbvView bf) ∧
        ((∀ e ∈ entries, e.binding ≠ r.baseShaderRegister + j) →
          w.2 = DescValue.nullSRV ∨ w.2 = DescValue.nullUAV ∨
            w.2 = DescValue.nullCBV)) ∧
    (∀ w ∈ updateSamplerWrites L entries,
      ∃ r ∈ L.samplerDescriptorRanges, ∃ j, j < r.numDescriptors ∧
        w.1 = r.offsetInTable + j ∧
        (w.2 = DescValue.defaultSampler ∨
          ∃ e ∈ entries, e.binding = r.baseShaderRegister + j ∧
            ∃ sid, e.sampler = some sid ∧ w.2 = DescValue.samplerView sid) ∧
        ((∀ e ∈ entries, e.binding ≠ r.baseShaderRegister + j) →
          w.2 = DescValue.defaultSampler)) := by
  have hinv : BglInv L := hL ▸ createBindGroupLayout_inv layoutEntries hcount
  rcases hinv with ⟨htileC, htileS, htypes, _⟩
  refine ⟨?_, ?_, ?_, ?_⟩
  · rw [updateCbvUavSrvWrites]
    by_cases hpos : 0 < L.descriptorTableSizeCbvUavSrv
    · rw [if_pos hpos,
        cbvFamilyWrites_positions entries L.cbvUavSrvDescriptorRanges 0 0
          L.descriptorTableSizeCbvUavSrv htileC htypes]
      simp only [Nat.sub_zero, Nat.zero_add]
      exact List.map_id (List.range L.descriptorTableSizeCbvUavSrv)
    · rw [if_neg hpos]
      have h0 : L.descriptorTableSizeCbvUavSrv = 0 := by omega
      rw [h0]
      rfl
  · rw [updateSamplerWrites]
    by_cases hpos : 0 < L.descriptorTableSizeSamplers
    · rw [if_pos hpos,
        samplerFamilyWrites_positions entries L.samplerDescriptorRanges 0 0
          L.descriptorTableSizeSamplers htileS]
      simp only [Nat.sub_zero, Nat.zero_add]
      exact List.map_id (List.range L.descriptorTableSizeSamplers)
    · rw [if_neg hpos]
      have h0 : L.descriptorTableSizeSamplers = 0 := by omega
      rw [h0]
      rfl
  · intro w hw
    rw [updateCbvUavSrvWrites] at hw
    by_cases hpos : 0 < L.descriptorTableSizeCbvUavSrv
    · rw [if_pos hpos] at hw
      exact cbvFamilyWrites_values entries L.cbvUavSrvDescriptorRanges 0 w hw
    · rw [if_neg hpos] at hw
      exact absurd hw (List.not_mem_nil w)
  · intro w hw
    rw [updateSamplerWrites] at hw
    by_cases hpos : 0 < L.descriptorTableSizeSamplers
    · rw [if_pos hpos] at hw
      exact samplerFamilyWrites_values entries L.samplerDescriptorRanges 0 w hw
    · rw [if_neg hpos] at hw
      exact absurd hw (List.not_mem_nil w)

theorem bindGroup_update_null_fill_witness :
    (updateCbvUavSrvWrites
        (createBindGroupLayout [⟨0, 1, VGPUDescriptorType.ConstantBuffer⟩,
          ⟨1, 1, VGPUDescriptorType.Sampler⟩]) [⟨0, some 7, some 3⟩]).map Prod.fst
      = List.range (createBindGroupLayout [⟨0, 1, VGPUDescriptorType.ConstantBuffer⟩,
          ⟨1, 1, VGPUDescriptorType.Sampler⟩]).descriptorTableSizeCbvUavSrv ∧
    (updateSamplerWrites
        (createBindGroupLayout [⟨0, 1, VGPUDescriptorType.ConstantBuffer⟩,
          ⟨1, 1, VGPUDescriptorType.Sampler⟩]) [⟨0, some 7, some 3⟩]).map Prod.fst
      = List.range (createBindGroupLayout [⟨0, 1, VGPUDescriptorType.ConstantBuffer⟩,
          ⟨1, 1, VGPUDescriptorType.Sampler⟩]).descriptorTableSizeSamplers := by
  have hthm := bindGroup_update_null_fill
    [⟨0, 1, VGPUDescriptorType.ConstantBuffer⟩, ⟨1, 1, VGPUDescriptorType.Sampler⟩]
    [⟨0, some 7, some 3⟩] _ rfl (by decide)
  exact ⟨hthm.1, hthm.2.1⟩

/-! ### Upload/staging ring

Embedding of `D3D12Device::UploadAllocate` / `UploadSubmit` (part_003 lines
2804-2875) over the upload context free list (`D3D12_UploadContext`, lines
1192-1205).  `UploadAllocate(size)` scans the free list for the first context
whose staging buffer fits the request and whose fence has completed its last
signalled value (`IsCompleted`): a hit is reset (`fence->Signal(0)`) and
swap-removed from the free list; a miss creates a fresh context with a
staging buffer of `vgpuNextPowerOfTwo(size)` bytes.  `UploadSubmit` bumps the
target fence value and appends the context back onto the free list; the GPU
signals the fence later.  Contexts are identified by creation order;
`buffersCreated` counts live staging buffers (they are only released at
device shutdown) and `highWater` tracks the maximum number of concurrently
outstanding (checked-out) contexts. -/

structure UploadCtx where
  id : Nat
  uploadBufferSize : Nat
  fenceValueSignaled : Nat
  fenceCompleted : Nat
deriving DecidableEq, Repr

structure UploadState where
  uploadFreeList : List UploadCtx
  outstanding : List UploadCtx
  nextId : Nat
  buffersCreated : Nat
  highWater : Nat
deriving DecidableEq, Repr

/-- The free-list scan of `UploadAllocate`: first context that fits and whose
fence is completed (`GetCompletedValue() >= fenceValueSignaled`); every
free-list context owns a staging buffer, so the `uploadBuffer != nullptr`
guard is vacuous in the model. -/
def uploadScan (size : Nat) : List UploadCtx → Option (Nat × UploadCtx)
  | [] => none
  | c :: rest =>
    if size ≤ c.uploadBufferSize ∧ c.fenceValueSignaled ≤ c.fenceCompleted then
      some (0, c)
    else
      match uploadScan size rest with
      | some r => some (r.1 + 1, r.2)
      | none => none

/-- `std::swap(freeList[i], freeList.back()); freeList.pop_back()`. -/
def swapRemove (l : List UploadCtx) (i : Nat) : List UploadCtx :=
  match l.getLast? with
  | some x => (l.set i x).dropLast
  | none => l

def uploadAllocate (s : UploadState) (size : Nat) : UploadState × UploadCtx :=
  match uploadScan size s.uploadFreeList with
  | some r =>
    let c2 : UploadCtx := { r.2 with fenceCompleted := 0 }
    ({ s with
        uploadFreeList := swapRemove s.uploadFreeList r.1,
        outstanding := s.outstanding ++ [c2],
        highWater := max s.highWater (s.outstanding ++ [c2]).length }, c2)
  | none =>
    let c : UploadCtx :=
      { id := s.nextId, uploadBufferSize := vgpuNextPowerOfTwo size,
        fenceValueSignaled := 0, fenceCompleted := 0 }
    ({ s with
        outstanding := s.outstanding ++ [c],
        nextId := s.nextId + 1,
        buffersCreated := s.buffersCreated + 1,
        highWater := max s.highWater (s.outstanding ++ [c]).length }, c)

/-- `UploadSubmit` of the `j`-th outstanding context: the target fence value
is incremented and the context is pushed back onto the free list (its fence
completes later, via `uploadSignal`). -/
def uploadSubmit (s : UploadState) (j : Nat) : UploadState :=
  match s.outstanding[j]? with
  | some c =>
    { s with
      outstanding := s.outstanding.eraseIdx j,
      uploadFreeList := s.uploadFreeList ++
        [{ c with fenceValueSignaled := c.fenceValueSignaled + 1 }] }
  | none => s

/-- The copy queue reaches the `i`-th free context's signal: its fence's
completed value becomes the signalled value. -/
def uploadSignal (s : UploadState) (i : Nat) : UploadState :=
  match s.uploadFreeList[i]? with
  | some c =>
    { s with uploadFreeList :=
        s.uploadFreeList.set i { c with fenceCompleted := c.fenceValueSignaled } }
  | none => s

inductive UploadOp where
  | alloc (size : Nat)
  | submit (j : Nat)
  | signal (i : Nat)
deriving DecidableEq, Repr

def stepUpload (s : UploadState) : UploadOp → UploadState
  | .alloc size => (uploadAllocate s size).1
  | .submit j => uploadSubmit s j
  | .signal i => uploadSignal s i

def runUpload (s : UploadState) : List UploadOp → UploadState
  | [] => s
  | op :: rest => runUpload (stepUpload s op) rest

def uploadStart : UploadState :=
  { uploadFreeList := [], outstanding := [], nextId := 0,
    buffersCreated := 0, highWater := 0 }

/-- The claim's scenario precondition at an allocation: every free context's
fence has signalled, and the request fits some free context (or the free
list is empty). -/
def allocFitOk (s : UploadState) (size : Nat) : Bool :=
  s.uploadFreeList.all (fun c => c.fenceValueSignaled ≤ c.fenceCompleted) &&
  (s.uploadFreeList.isEmpty || s.uploadFreeList.any (fun c => size ≤ c.uploadBufferSize))

def uploadOpOk (s : UploadState) : UploadOp → Bool
  | .alloc size => allocFitOk s size
  | .submit _ => true
  | .signal _ => true

def uploadTraceOk : UploadState → List UploadOp → Bool
  | _, [] => true
  | s, op :: rest => uploadOpOk s op && uploadTraceOk (stepUpload s op) rest

theorem uploadScan_some_of_exists (size : Nat) :
    ∀ (l : List UploadCtx),
      (∃ c ∈ l, size ≤ c.uploadBufferSize ∧ c.fenceValueSignaled ≤ c.fenceCompleted) →
      ∃ i c, uploadScan size l = some (i, c) ∧ l[i]? = some c := by
  intro l
  induction l with
  | nil => intro h; rcases h with ⟨c, hc, _⟩; exact absurd hc (List.not_mem_nil c)
  | cons c rest ih =>
    intro h
    by_cases hfit : size ≤ c.uploadBufferSize ∧ c.fenceValueSignaled ≤ c.fenceCompleted
    · exact ⟨0, c, by rw [uploadScan, if_pos hfit], by simp⟩
    · have hrest : ∃ c2 ∈ rest, size ≤ c2.uploadBufferSize ∧
          c2.fenceValueSignaled ≤ c2.fenceCompleted := by
        rcases h with ⟨c2, hc2, hp⟩
        rcases List.mem_cons.mp hc2 with hc2 | hc2
        · subst hc2; exact absurd hp hfit
        · exact ⟨c2, hc2, hp⟩
      rcases ih hrest with ⟨i, c2, hscan, hget⟩
      refine ⟨i + 1, c2, ?_, by rw [List.getElem?_cons_succ]; exact hget⟩
      rw [uploadScan, if_neg hfit, hscan]

theorem uploadScan_some_sound (size : Nat) :
    ∀ (l : List UploadCtx) (i : Nat) (c : UploadCtx),
      uploadScan size l = some (i, c) → i < l.length ∧ l[i]? = some c := by
  intro l
  induction l with
  | nil => intro i c h; exact absurd h (by simp [uploadScan])
  | cons c0 rest ih =>
    intro i c h
    by_cases hfit : size ≤ c0.uploadBufferSize ∧ c0.fenceValueSignaled ≤ c0.fenceCompleted
    · rw [uploadScan, if_pos hfit] at h
      injection h with h
      injection h with h1 h2
      subst h1
      subst h2
      exact ⟨by simp, by simp⟩
    · rw [uploadScan, if_neg hfit] at h
      rcases hscan : uploadScan size rest with _ | r
      · rw [hscan] at h
        exact absurd h (by simp)
      · rw [hscan] at h
        simp only [] at h
        injection h with h
        injection h with h1 h2
        subst h1
        subst h2
        rcases ih r.1 r.2 hscan with ⟨hlt, hget⟩
        exact ⟨by simp only [List.length_cons]; omega,
          by rw [List.getElem?_cons_succ]; exact hget⟩

theorem uploadScan_none_of_forall (size : Nat) :
    ∀ (l : List UploadCtx),
      (∀ c ∈ l, ¬(size ≤ c.uploadBufferSize ∧ c.fenceValueSignaled ≤ c.fenceCompleted)) →
      uploadScan size l = none := by
  intro l
  induction l with
  | nil => intro _; rfl
  | cons c rest ih =>
    intro h
    rw [uploadScan, if_neg (h c (List.mem_cons_self c rest)),
      ih (fun x hx => h x (List.mem_cons_of_mem c hx))]

theorem swapRemove_length (l : List UploadCtx) (i : Nat) (hi : i < l.length) :
    (swapRemove l i).length + 1 = l.length := by
  have hne : l ≠ [] := by
    intro h; subst h; simp at hi
  rcases hlast : l.getLast? with _ | x
  · exact absurd (List.getLast?_eq_none_iff.mp hlast) hne
  · rw [swapRemove, hlast]
    simp only [List.length_dropLast, List.length_set]
    omega

def UploadInv (s : UploadState) : Prop :=
  s.buffersCreated = s.outstanding.length + s.uploadFreeList.length ∧
  s.buffersCreated ≤ s.highWater

theorem stepUpload_inv (s : UploadState) (op : UploadOp) (hinv : UploadInv s)
    (hok : uploadOpOk s op = true) : UploadInv (stepUpload s op) := by
  rcases hinv with ⟨hcnt, hhw⟩
  cases op with
  | alloc size =>
    simp only [uploadOpOk, allocFitOk, Bool.and_eq_true, List.all_eq_true, Bool.or_eq_true,
      List.isEmpty_iff, List.any_eq_true, decide_eq_true_eq] at hok
    rcases hok with ⟨hcompleted, hfit⟩
    rcases hfit with hempty | ⟨c, hc, hcsize⟩
    · -- free list empty: the scan misses and a fresh context is created
      have hscan : uploadScan size s.uploadFreeList = none := by
        rw [hempty]; rfl
      simp only [stepUpload, uploadAllocate, hscan]
      refine ⟨?_, ?_⟩
      · simp only [List.length_append, List.length_cons, List.length_nil, hempty] at hcnt ⊢
        omega
      · simp only [List.length_append, List.length_cons, List.length_nil, hempty] at hcnt ⊢
        omega
    · -- a free context fits and is completed: the scan hits and reuses it
      have hex : ∃ c2 ∈ s.uploadFreeList, size ≤ c2.uploadBufferSize ∧
          c2.fenceValueSignaled ≤ c2.fenceCompleted :=
        ⟨c, hc, hcsize, hcompleted c hc⟩
      rcases uploadScan_some_of_exists size s.uploadFreeList hex with ⟨i, c2, hscan, hget⟩
      have hi : i < s.uploadFreeList.length := by
        have := List.getElem?_mem hget
        rcases List.getElem?_eq_some_iff.mp hget with ⟨h1, _⟩
        exact h1
      simp only [stepUpload, uploadAllocate, hscan]
      refine ⟨?_, ?_⟩
      · have hlen := swapRemove_length s.uploadFreeList i hi
        simp only [List.length_append, List.length_cons, List.length_nil]
        omega
      · exact le_trans hhw (Nat.le_max_left _ _)
  | submit j =>
    simp only [stepUpload, uploadSubmit]
    rcases hget : s.outstanding[j]? with _ | c
    · exact ⟨hcnt, hhw⟩
    · have hj : j < s.outstanding.length :=
        (List.getElem?_eq_some_iff.mp hget).1
      refine ⟨?_, hhw⟩
      simp only [List.length_append, List.length_cons, List.length_nil,
        List.length_eraseIdx_of_lt hj]
      omega
  | signal i =>
    simp only [stepUpload, uploadSignal]
    rcases hget : s.uploadFreeList[i]? with _ | c
    · exact ⟨hcnt, hhw⟩
    · refine ⟨?_, hhw⟩
      simp only [List.length_set]
      exact hcnt

theorem runUpload_inv (ops : List UploadOp) :
    ∀ (s : UploadState), UploadInv s → uploadTraceOk s ops = true →
      UploadInv (runUpload s ops) := by
  induction ops with
  | nil => intro s hs _; exact hs
  | cons op rest ih =>
    intro s hs hok
    rw [uploadTraceOk, Bool.and_eq_true] at hok
    exact ih (stepUpload s op) (stepUpload_inv s op hs hok.1) hok.2

/-- Claim C7: (reuse) when some free-list context fits the request and its
fence has completed, `UploadAllocate` takes a context out of the free list —
no staging buffer is created, the free list shrinks by one, and the returned
context is a free-list member with its fence reset; (sizing) when no free
context fits, the fresh context's staging buffer is
`vgpuNextPowerOfTwo(size)` bytes and one buffer is created; (bound) along
every `Allocate`/`Submit`/fence-signal trace in which, at each allocation,
every free context's fence has signalled and the request fits some free
context whenever the free list is nonempty, the number of live staging
buffers never exceeds the high-water mark of concurrently outstanding upload
requests. -/
theorem uploadAllocate_reuse_bound (s : UploadState) (size : Nat) :
    ((∃ c ∈ s.uploadFreeList, size ≤ c.uploadBufferSize ∧
        c.fenceValueSignaled ≤ c.fenceCompleted) →
      (uploadAllocate s size).1.buffersCreated = s.buffersCreated ∧
      (uploadAllocate s size).1.uploadFreeList.length + 1 = s.uploadFreeList.length ∧
      ∃ c ∈ s.uploadFreeList,
        (uploadAllocate s size).2 = { c with fenceCompleted := 0 }) ∧
    ((∀ c ∈ s.uploadFreeList, ¬(size ≤ c.uploadBufferSize ∧
        c.fenceValueSignaled ≤ c.fenceCompleted)) →
      (uploadAllocate s size).2.uploadBufferSize = vgpuNextPowerOfTwo size ∧
      (uploadAllocate s size).1.buffersCreated = s.buffersCreated + 1 ∧
      (uploadAllocate s size).1.uploadFreeList = s.uploadFreeList) ∧
    (∀ ops : List UploadOp, uploadTraceOk uploadStart ops = true →
      (runUpload uploadStart ops).buffersCreated ≤ (runUpload uploadStart ops).highWater) := by
  refine ⟨?_, ?_, ?_⟩
  · intro hex
    rcases uploadScan_some_of_exists size s.uploadFreeList hex with ⟨i, c2, hscan, hget⟩
    have hi : i < s.uploadFreeList.length :=
      (List.getElem?_eq_some_iff.mp hget).1
    refine ⟨?_, ?_, ?_⟩
    · simp [uploadAllocate, hscan]
    · simp only [uploadAllocate, hscan]
      exact swapRemove_length s.uploadFreeList i hi
    · refine ⟨c2, List.getElem?_mem hget, ?_⟩
      simp [uploadAllocate, hscan]
  · intro hno
    have hscan := uploadScan_none_of_forall size s.uploadFreeList hno
    refine ⟨?_, ?_, ?_⟩ <;> simp [uploadAllocate, hscan]
  · intro ops hok
    exact (runUpload_inv ops uploadStart ⟨rfl, le_rfl⟩ hok).2

theorem uploadAllocate_reuse_bound_witness :
    (uploadAllocate ⟨[⟨0, 4, 1, 1⟩], [], 1, 1, 1⟩ 3).1.buffersCreated = 1 ∧
    (uploadAllocate uploadStart 3).2.uploadBufferSize = vgpuNextPowerOfTwo 3 ∧
    (runUpload uploadStart
        [UploadOp.alloc 1, UploadOp.submit 0, UploadOp.signal 0, UploadOp.alloc 1]).buffersCreated ≤
      (runUpload uploadStart
        [UploadOp.alloc 1, UploadOp.submit 0, UploadOp.signal 0, UploadOp.alloc 1]).highWater := by
  have h1 := uploadAllocate_reuse_bound ⟨[⟨0, 4, 1, 1⟩], [], 1, 1, 1⟩ 3
  have h2 := uploadAllocate_reuse_bound uploadStart 3
  refine ⟨(h1.1 ⟨⟨0, 4, 1, 1⟩, by decide, by decide⟩).1, (h2.2.1 ?_).1,
    h2.2.2 [UploadOp.alloc 1, UploadOp.submit 0, UploadOp.signal 0, UploadOp.alloc 1]
      (by decide)⟩
  intro c hc
  exact absurd hc (List.not_mem_nil c)
